import Mathlib

/-!
Verification of the Meeting Task Assignment pipeline
(`src/priority_classifier.py`, `src/team_store.py`, `src/assignment_engine.py`,
`src/dependency_resolver.py`, `src/deadline_parser.py`, `src/task_extractor.py`,
`src/output_serializer.py`, `src/pipeline.py`, `src/models.py`).

The Python code is shallowly embedded: Python strings are `String`,
Python `str.lower()` / `str.strip()` / the `in` substring test are modelled
character-wise, Python `int` is `Int`, Python `float` scores (which are sums
of the literals 0.3, 0.4, 0.5, 1.5, 2.0 appearing in the source and whose
comparisons against 0 and 1 are exact at these magnitudes) are modelled as
`Rat`, `datetime.date` is a year/month/day record with proleptic Gregorian
rules, `None` is `none`, and dictionaries keyed by task index are total
functions with the dictionary default.
-/

namespace MeetingTasks

/-- Python `str.lower` on a single character (ASCII case fold, as used by the
source on its ASCII keyword tables). -/
def lowerChar (c : Char) : Char := c.toLower

/-- Python `str.lower()`. -/
def lowerStr (s : String) : String := String.mk (s.toList.map lowerChar)

/-- Python `str.isspace`-style whitespace test for the characters `str.strip`
removes. -/
def isSpaceChar (c : Char) : Bool := c = ' ' || c = '\t' || c = '\n' || c = '\r'

/-- Python `str.strip()` on the character list. -/
def stripList (l : List Char) : List Char :=
  ((l.dropWhile isSpaceChar).reverse.dropWhile isSpaceChar).reverse

/-- Python `str.strip()`. -/
def stripStr (s : String) : String := String.mk (stripList s.toList)

/-- Does `pat` occur as a leading block of `l`?  (Helper for the substring
test; Python has no direct counterpart, it is part of `in`.) -/
def leadsList : List Char → List Char → Bool
  | [], _ => true
  | _ :: _, [] => false
  | a :: as, b :: bs => a = b && leadsList as bs

/-- Python `sub in hay` on character lists. -/
def subList : List Char → List Char → Bool
  | pat, [] => leadsList pat []
  | pat, c :: rest => leadsList pat (c :: rest) || subList pat rest

/-- Python `sub in hay` for strings. -/
def strIn (sub hay : String) : Bool := subList sub.toList hay.toList

/-- Priority levels, `models.PriorityLevel`. -/
inductive PriorityLevel where
  | Critical
  | High
  | Medium
  | Low
deriving DecidableEq, Repr

/-- `models.ExtractedTask`. -/
structure ExtractedTask where
  description : String
  raw_text : String
  mentioned_person : Option String := none
  deadline_phrase : Option String := none
  priority_indicators : List String := []
  dependency_phrases : List String := []
deriving DecidableEq, Repr

/-- `priority_classifier.PriorityClassifier.CRITICAL_INDICATORS`. -/
def CRITICAL_INDICATORS : List String :=
  ["critical", "urgent", "asap", "immediately", "emergency",
   "right away", "right now", "drop everything"]

/-- `priority_classifier.PriorityClassifier.HIGH_INDICATORS`. -/
def HIGH_INDICATORS : List String :=
  ["high priority", "important", "blocking", "blocker",
   "affecting users", "affecting the user", "user experience",
   "affecting the user experience", "it\x27s affecting",
   "before release", "production issue",
   "customer impact", "deadline", "must have",
   "really slow", "is slow"]

/-- `priority_classifier.PriorityClassifier.LOW_INDICATORS`. -/
def LOW_INDICATORS : List String :=
  ["when possible", "nice to have", "low priority",
   "backlog", "eventually", "no rush",
   "whenever", "if time permits"]

/-- `priority_classifier.PriorityClassifier._has_critical_indicators`:
true when a provided indicator equals (case folded) a critical keyword, or
the lowered text contains one. -/
def hasCriticalIndicators (text : String) (indicators : List String) : Bool :=
  indicators.any (fun ind =>
      (CRITICAL_INDICATORS.map lowerStr).contains (lowerStr ind))
    || CRITICAL_INDICATORS.any (fun indicator => strIn indicator text)

/-- `priority_classifier.PriorityClassifier._has_high_indicators`. -/
def hasHighIndicators (text : String) (indicators : List String) : Bool :=
  indicators.any (fun ind =>
      (HIGH_INDICATORS.map lowerStr).contains (lowerStr ind))
    || HIGH_INDICATORS.any (fun indicator => strIn indicator text)

/-- `priority_classifier.PriorityClassifier._has_low_indicators`. -/
def hasLowIndicators (text : String) (indicators : List String) : Bool :=
  indicators.any (fun ind =>
      (LOW_INDICATORS.map lowerStr).contains (lowerStr ind))
    || LOW_INDICATORS.any (fun indicator => strIn indicator text)

/-- `priority_classifier.PriorityClassifier._check_deadline_urgency`, given
`days_until = (deadline - ref_date).days` (the only use the source makes of
the two dates).  `none` for the deadline means no deadline was supplied. -/
def checkDeadlineUrgency (daysUntil : Option Int) : Option PriorityLevel :=
  match daysUntil with
  | none => none
  | some days =>
      if days ≤ 1 then some PriorityLevel.Critical
      else if days ≤ 2 then some PriorityLevel.High
      else none

/-- `priority_classifier.PriorityClassifier.classify`, with the deadline and
reference date already collapsed to `days_until` as in
`_check_deadline_urgency`. -/
def classify (task : ExtractedTask) (daysUntil : Option Int) : PriorityLevel :=
  let text_lower := lowerStr task.raw_text
  let indicators := task.priority_indicators
  if strIn "can wait" text_lower then PriorityLevel.Medium
  else if hasCriticalIndicators text_lower indicators then PriorityLevel.Critical
  else
    let deadline_priority := checkDeadlineUrgency daysUntil
    if deadline_priority = some PriorityLevel.Critical then PriorityLevel.Critical
    else if hasHighIndicators text_lower indicators then PriorityLevel.High
    else match deadline_priority with
      | some p => p
      | none =>
        if hasLowIndicators text_lower indicators then PriorityLevel.Low
        else PriorityLevel.Medium

/-- `models.TeamMember` after `__post_init__` skill normalization (the
constructor below applies it). -/
structure TeamMember where
  name : String
  role : String
  skills : List String
deriving DecidableEq, Repr

/-- `models.TeamMember.__post_init__`: lowercases, strips and drops blank
skills. -/
def mkTeamMember (name role : String) (skills : List String) : TeamMember :=
  { name := name, role := role,
    skills := (skills.filter (fun s => ¬ (stripStr s).isEmpty)).map
      (fun s => stripStr (lowerStr s)) }

/-- `models.ValidationResult` (the fields `validate_member` populates). -/
structure ValidationResult where
  is_valid : Bool
  error_message : Option String := none
  missing_fields : List String := []
deriving DecidableEq, Repr

/-- Python truthiness test `not member.name or not member.name.strip()`. -/
def blankStr (s : String) : Bool := s.isEmpty || (stripStr s).isEmpty

/-- `team_store.TeamMemberStore.validate_member`. -/
def validate_member (member : TeamMember) : ValidationResult :=
  let missing_fields :=
    (if blankStr member.name then ["name"] else [])
      ++ (if blankStr member.role then ["role"] else [])
      ++ (if member.skills.isEmpty then ["skills"] else [])
  if ¬ missing_fields.isEmpty then
    { is_valid := false,
      error_message := some ("Missing required fields: " ++
        String.intercalate ", " missing_fields),
      missing_fields := missing_fields }
  else { is_valid := true }

/-- Claim C2, counterexample: the task text `"This is urgent but it can wait"`
contains the Critical indicator `"urgent"`, yet `classify` returns `Medium`
(the `"can wait"` check runs first), so the claim as stated is false. -/
theorem C2_counterexample :
    (∃ c ∈ CRITICAL_INDICATORS,
      strIn c (lowerStr "This is urgent but it can wait") = true) ∧
    classify { description := "x", raw_text := "This is urgent but it can wait" }
      none = PriorityLevel.Medium := by
  exact ⟨⟨"urgent", by decide, by decide⟩, by decide⟩

/-- Claim C2, amended: for every `ExtractedTask` whose raw text contains a
Critical indicator and does **not** contain `"can wait"`,
`PriorityClassifier.classify` returns `Critical` (in particular a member of
the set consisting of Critical and High, never Medium or Low), for any
deadline argument and any reference date (collapsed to `daysUntil`). -/
theorem C2_amended (task : ExtractedTask) (daysUntil : Option Int)
    (hc : ∃ c ∈ CRITICAL_INDICATORS, strIn c (lowerStr task.raw_text) = true)
    (hw : strIn "can wait" (lowerStr task.raw_text) = false) :
    classify task daysUntil = PriorityLevel.Critical := by
  have hcrit : hasCriticalIndicators (lowerStr task.raw_text)
      task.priority_indicators = true := by
    unfold hasCriticalIndicators
    rcases hc with ⟨c, hmem, hin⟩
    refine Bool.or_eq_true _ _ |>.mpr (Or.inr ?_)
    exact List.any_eq_true.mpr ⟨c, hmem, hin⟩
  simp only [classify, hw, hcrit]
  simp

/-- Claim C2, witness: instantiates `C2_amended` on a concrete task. -/
theorem C2_witness :
    classify { description := "x", raw_text := "urgent fix" } none
      = PriorityLevel.Critical :=
  C2_amended _ none ⟨"urgent", by decide, by decide⟩ (by decide)

/-- Claim C9: a `TeamMember` validates successfully iff name, role and skills
are all present (non-blank name and role, non-empty normalized skills); the
`missing_fields` list names exactly the missing fields and nothing else. -/
theorem C9_validate_member_characterization (m : TeamMember) :
    ((validate_member m).is_valid = true ↔
      (blankStr m.name = false ∧ blankStr m.role = false ∧ m.skills ≠ [])) ∧
    ("name" ∈ (validate_member m).missing_fields ↔ blankStr m.name = true) ∧
    ("role" ∈ (validate_member m).missing_fields ↔ blankStr m.role = true) ∧
    ("skills" ∈ (validate_member m).missing_fields ↔ m.skills = []) ∧
    (∀ f ∈ (validate_member m).missing_fields,
      f = "name" ∨ f = "role" ∨ f = "skills") := by
  unfold validate_member
  rcases hb : blankStr m.name <;> rcases hr : blankStr m.role <;>
    rcases hs : m.skills.isEmpty <;>
      simp_all [List.isEmpty_iff]

/-- Claim C9, witness: concrete members exercising the characterization. -/
theorem C9_witness :
    "name" ∈ (validate_member (mkTeamMember "" "qa" [" react "])).missing_fields ∧
    "skills" ∈ (validate_member (mkTeamMember "Bo" "qa" [])).missing_fields ∧
    (validate_member (mkTeamMember "Bo" "qa" ["react"])).is_valid = true := by
  refine ⟨?_, ?_, ?_⟩
  · exact ((C9_validate_member_characterization
      (mkTeamMember "" "qa" [" react "])).2.1).mpr (by decide)
  · exact ((C9_validate_member_characterization
      (mkTeamMember "Bo" "qa" [])).2.2.2.1).mpr (by decide)
  · exact ((C9_validate_member_characterization
      (mkTeamMember "Bo" "qa" ["react"])).1).mpr (by decide)

/-- Final per-sentence filter step of `task_extractor.TaskExtractor.extract_tasks`:
given the candidate produced by `_extract_task_from_sentence` for each surviving
sentence (`none` where it returned `None`), a candidate is kept iff it is
non-`None` and `len(task.description) > 10`. -/
def lengthFilter (candidates : List (Option ExtractedTask)) : List ExtractedTask :=
  candidates.filterMap (fun c => c.bind (fun t =>
    if 10 < t.description.length then some t else none))

/-- `models.TaskDependency`. -/
structure TaskDependency where
  dependent_task_index : Nat
  prerequisite_task_index : Nat
  dependency_phrase : String
deriving DecidableEq, Repr

/-- `models.TaskOutput`. -/
structure TaskOutput where
  task_number : Int
  description : String
  assigned_to : Option String := none
  deadline : Option String := none
  priority : String := "Medium"
  dependencies : Option String := none
  reasoning : Option String := none
deriving DecidableEq, Repr

/-- The dependency text written by `pipeline.MeetingTaskPipeline.process`
(and `process_transcript`): `f"Depends on Task #{prereq_num}"` with
`prereq_num = dep.prerequisite_task_index + 1`. -/
def depMessage (dep : TaskDependency) : String :=
  "Depends on Task #" ++ toString (dep.prerequisite_task_index + 1)

/-- Overwrite of the `dependencies` field of the output at index `i`
(the body of the update loop in `pipeline.MeetingTaskPipeline.process`). -/
def updateDepAt : List TaskOutput → Nat → String → List TaskOutput
  | [], _, _ => []
  | o :: rest, 0, msg => { o with dependencies := some msg } :: rest
  | o :: rest, n + 1, msg => o :: updateDepAt rest n msg

/-- The dependency-surfacing loop of `pipeline.MeetingTaskPipeline.process`
(identical in `process_transcript`): for each resolved dependency in emission
order, if the dependent index is in range, overwrite that output's
`dependencies` field with the formatted message. -/
def applyDependencies (outputs : List TaskOutput) (deps : List TaskDependency) :
    List TaskOutput :=
  deps.foldl (fun outs dep =>
    if dep.dependent_task_index < outs.length then
      updateDepAt outs dep.dependent_task_index (depMessage dep)
    else outs) outputs

theorem updateDepAt_length (l : List TaskOutput) (n : Nat) (msg : String) :
    (updateDepAt l n msg).length = l.length := by
  induction l generalizing n with
  | nil => rfl
  | cons o rest ih =>
      cases n with
      | zero => rfl
      | succ m => simpa [updateDepAt] using ih m

theorem applyDependencies_length (outs : List TaskOutput)
    (deps : List TaskDependency) :
    (applyDependencies outs deps).length = outs.length := by
  induction deps generalizing outs with
  | nil => rfl
  | cons d rest ih =>
      simp only [applyDependencies, List.foldl_cons]
      by_cases h : d.dependent_task_index < outs.length
      · rw [if_pos h]
        rw [show (List.foldl _ (updateDepAt outs d.dependent_task_index
            (depMessage d)) rest) = applyDependencies
            (updateDepAt outs d.dependent_task_index (depMessage d)) rest from rfl]
        rw [ih, updateDepAt_length]
      · rw [if_neg h]
        exact ih outs

theorem updateDepAt_getElem_self (l : List TaskOutput) (n : Nat) (msg : String)
    (h : n < l.length) :
    (updateDepAt l n msg)[n]? = (l[n]?).map
      (fun o => { o with dependencies := some msg }) := by
  induction l generalizing n with
  | nil => simp at h
  | cons o rest ih =>
      cases n with
      | zero => simp [updateDepAt]
      | succ m =>
          simp only [updateDepAt, List.getElem?_cons_succ]
          exact ih m (by simpa using h)

theorem updateDepAt_getElem_ne (l : List TaskOutput) (n m : Nat) (msg : String)
    (hne : m ≠ n) : (updateDepAt l n msg)[m]? = l[m]? := by
  induction l generalizing n m with
  | nil => rfl
  | cons o rest ih =>
      cases n with
      | zero =>
          cases m with
          | zero => exact absurd rfl hne
          | succ k => simp [updateDepAt]
      | succ n' =>
          cases m with
          | zero => simp [updateDepAt]
          | succ k =>
              simp only [updateDepAt, List.getElem?_cons_succ]
              exact ih n' k (fun hk => hne (by simpa using hk))

/-- Claim C1, counterexample: with one task output and two resolved edges for
dependent task 0 (prerequisites 1 then 2, in emission order), the surfaced
`dependencies` field is that of the **last** edge (`Task #3`), not the first
(`Task #2`), so the claim as stated is false. -/
theorem C1_counterexample :
    (applyDependencies [{ task_number := 1, description := "t1" }]
        [{ dependent_task_index := 0, prerequisite_task_index := 1,
           dependency_phrase := "a" },
         { dependent_task_index := 0, prerequisite_task_index := 2,
           dependency_phrase := "b" }]).map (fun o => o.dependencies)
      = [some "Depends on Task #3"] ∧
    (([{ dependent_task_index := 0, prerequisite_task_index := 1,
         dependency_phrase := "a" },
       { dependent_task_index := 0, prerequisite_task_index := 2,
         dependency_phrase := "b" }] :
        List TaskDependency).find?
      (fun d => d.dependent_task_index == 0)).map depMessage
      = some "Depends on Task #2" ∧
    ("Depends on Task #3" : String) ≠ "Depends on Task #2" := by
  decide

/-- Claim C1, amended: the final per-task `dependencies` field exposes the
**last** prerequisite edge emitted by `DependencyResolver.resolve` for that
dependent task (the update loop overwrites the single-valued field per edge);
earlier prerequisite edges are not surfaced.  If no edge targets the task,
the field is unchanged. -/
theorem C1_amended (outs : List TaskOutput) (deps : List TaskDependency)
    (i : Nat) (h : i < outs.length) :
    (applyDependencies outs deps)[i]? =
      some (match deps.reverse.find?
          (fun d => d.dependent_task_index == i) with
        | some d => { outs[i] with dependencies := some (depMessage d) }
        | none => outs[i]) := by
  induction deps using List.reverseRecOn generalizing outs with
  | nil => simp [applyDependencies]
  | append_singleton ds d ih =>
      have hlen : (applyDependencies outs ds).length = outs.length :=
        applyDependencies_length outs ds
      have hstep : applyDependencies outs (ds ++ [d]) =
          (if d.dependent_task_index < (applyDependencies outs ds).length then
            updateDepAt (applyDependencies outs ds) d.dependent_task_index
              (depMessage d)
          else applyDependencies outs ds) := by
        simp [applyDependencies, List.foldl_append]
      rw [hstep, List.reverse_append]
      by_cases hd : d.dependent_task_index = i
      · have hbeq : (d.dependent_task_index == i) = true := by simpa using hd
        have hlt : d.dependent_task_index < (applyDependencies outs ds).length := by
          rw [hlen, hd]; exact h
        rw [if_pos hlt, hd,
          updateDepAt_getElem_self _ _ _ (by rw [hlen]; exact h), ih outs h]
        simp only [List.reverse_singleton, List.singleton_append,
          List.find?_cons, hbeq]
        rcases hf : List.find? (fun d => d.dependent_task_index == i)
            ds.reverse with _ | d' <;> simp [hf]
      · have hbeq : (d.dependent_task_index == i) = false := by
          simpa using hd
        simp only [List.reverse_singleton, List.singleton_append,
          List.find?_cons, hbeq]
        by_cases hin : d.dependent_task_index < (applyDependencies outs ds).length
        · rw [if_pos hin]
          rw [updateDepAt_getElem_ne _ _ _ _ (fun he => hd he.symm), ih outs h]
        · rw [if_neg hin]
          exact ih outs h

/-- Claim C1, witness: instantiates `C1_amended` on concrete outputs. -/
theorem C1_witness :
    (applyDependencies [{ task_number := 1, description := "t1" }]
        [{ dependent_task_index := 0, prerequisite_task_index := 1,
           dependency_phrase := "a" },
         { dependent_task_index := 0, prerequisite_task_index := 2,
           dependency_phrase := "b" }])[0]? =
      some { task_number := 1, description := "t1",
             dependencies := some (depMessage
               { dependent_task_index := 0, prerequisite_task_index := 2,
                 dependency_phrase := "b" }) } := by
  rw [C1_amended _ _ 0 (by decide)]
  decide

/-- Claim C8, counterexample: a derived task whose description is exactly 10
characters long is removed by the length filter, so the "10 or more is kept"
half of the claim is false. -/
theorem C8_counterexample :
    ("abcdefghij" : String).length = 10 ∧
    lengthFilter [some { description := "abcdefghij", raw_text := "r" }] = [] := by
  decide

/-- Claim C8, amended: the length filter of `TaskExtractor.extract_tasks`
keeps a derived task iff its description is **strictly longer than 10**
characters: every returned task has a description of at least 11 characters,
and a derived task with an 11-or-more-character description is never removed
by this filter (10-character descriptions are discarded). -/
theorem C8_amended (candidates : List (Option ExtractedTask))
    (t : ExtractedTask) :
    t ∈ lengthFilter candidates ↔
      (some t ∈ candidates ∧ 10 < t.description.length) := by
  constructor
  · intro ht
    rcases List.mem_filterMap.mp ht with ⟨c, hc, he⟩
    rcases c with _ | u
    · simp at he
    · simp only [Option.some_bind] at he
      by_cases hlen : 10 < u.description.length
      · rw [if_pos hlen] at he
        cases he
        exact ⟨hc, hlen⟩
      · rw [if_neg hlen] at he
        cases he
  · rintro ⟨hc, hlen⟩
    exact List.mem_filterMap.mpr ⟨some t, hc, by simp [hlen]⟩

/-- Python `datetime.date`: a proleptic Gregorian calendar date.  Python
restricts years to 1..9999; the embedding uses an unbounded year, which
agrees with Python wherever Python does not overflow. -/
structure PyDate where
  year : Int
  month : Nat
  day : Nat
deriving DecidableEq, Repr

/-- Gregorian leap-year rule (as in Python `calendar.isleap`). -/
def isLeapYear (y : Int) : Bool :=
  (y % 4 == 0 && y % 100 != 0) || y % 400 == 0

/-- Number of days of month `m` of year `y`. -/
def daysInMonth (y : Int) (m : Nat) : Nat :=
  if m = 2 then (if isLeapYear y then 29 else 28)
  else if m = 4 ∨ m = 6 ∨ m = 9 ∨ m = 11 then 30
  else 31

/-- The dates `datetime.date` can actually hold (month and day in range). -/
def ValidDate (d : PyDate) : Prop :=
  1 ≤ d.month ∧ d.month ≤ 12 ∧ 1 ≤ d.day ∧ d.day ≤ daysInMonth d.year d.month

instance : DecidablePred ValidDate := fun d => by
  unfold ValidDate; infer_instance

/-- Successor date (`date + timedelta(days=1)`). -/
def nextDay (d : PyDate) : PyDate :=
  if d.day < daysInMonth d.year d.month then ⟨d.year, d.month, d.day + 1⟩
  else if d.month < 12 then ⟨d.year, d.month + 1, 1⟩
  else ⟨d.year + 1, 1, 1⟩

/-- `date + timedelta(days=n)`. -/
def addDays (d : PyDate) (n : Nat) : PyDate := nextDay^[n] d

/-- Days since 1970-01-01 of a proleptic Gregorian date (the standard civil
day-count formula; Python's `date.toordinal` shifted by a constant). -/
def rataDie (dt : PyDate) : Int :=
  let y : Int := if dt.month ≤ 2 then dt.year - 1 else dt.year
  let era : Int := Int.fdiv y 400
  let yoe : Int := y - era * 400
  let mp : Int := (Int.ofNat dt.month + 9) % 12
  let doy : Int := Int.fdiv (153 * mp + 2) 5 + Int.ofNat dt.day - 1
  let doe : Int := yoe * 365 + Int.fdiv yoe 4 - Int.fdiv yoe 100 + doy
  era * 146097 + doe - 719468

/-- Python `date.weekday()` (Monday = 0); 1970-01-01 was a Thursday. -/
def weekday (d : PyDate) : Int := (rataDie d + 3) % 7

/-- `deadline_parser._next_weekday`. -/
def nextWeekday (from_date : PyDate) (wd : Int) : PyDate :=
  let days_ahead := wd - weekday from_date
  let days_ahead := if days_ahead ≤ 0 then days_ahead + 7 else days_ahead
  addDays from_date days_ahead.toNat

/-- `deadline_parser._end_of_week`: the Friday of the current week. -/
def endOfWeek (from_date : PyDate) : PyDate :=
  let days_until_friday := 4 - weekday from_date
  let days_until_friday :=
    if days_until_friday < 0 then days_until_friday + 7 else days_until_friday
  addDays from_date days_until_friday.toNat

/-- First day of the following month (the `next_month` value computed by
`deadline_parser._end_of_month`). -/
def firstOfNextMonth (d : PyDate) : PyDate :=
  if d.month = 12 then ⟨d.year + 1, 1, 1⟩ else ⟨d.year, d.month + 1, 1⟩

/-- `date - timedelta(days=1)` at the calendar level. -/
def subOneDay (d : PyDate) : PyDate :=
  if 1 < d.day then ⟨d.year, d.month, d.day - 1⟩
  else if 1 < d.month then ⟨d.year, d.month - 1, daysInMonth d.year (d.month - 1)⟩
  else ⟨d.year - 1, 12, 31⟩

/-- `deadline_parser._end_of_month`. -/
def endOfMonth (d : PyDate) : PyDate := subOneDay (firstOfNextMonth d)

/-- Calendar order on dates (Python date comparison). -/
def PyDate.le (a b : PyDate) : Prop :=
  a.year < b.year ∨ (a.year = b.year ∧
    (a.month < b.month ∨ (a.month = b.month ∧ a.day ≤ b.day)))

instance (a b : PyDate) : Decidable (a.le b) := by
  unfold PyDate.le; infer_instance

/-- `deadline_parser.DeadlineParser.RELATIVE_PATTERNS`. -/
def RELATIVE_PATTERNS : List (String × (PyDate → PyDate)) :=
  [("today", fun d => d),
   ("tonight", fun d => d),
   ("tomorrow", fun d => addDays d 1),
   ("tomorrow evening", fun d => addDays d 1),
   ("tomorrow morning", fun d => addDays d 1),
   ("next week", fun d => addDays d 7),
   ("next monday", fun d => nextWeekday d 0),
   ("next tuesday", fun d => nextWeekday d 1),
   ("next wednesday", fun d => nextWeekday d 2),
   ("next thursday", fun d => nextWeekday d 3),
   ("next friday", fun d => nextWeekday d 4),
   ("next saturday", fun d => nextWeekday d 5),
   ("next sunday", fun d => nextWeekday d 6),
   ("end of week", fun d => endOfWeek d),
   ("end of this week", fun d => endOfWeek d),
   ("this week", fun d => endOfWeek d),
   ("end of month", fun d => endOfMonth d),
   ("end of this month", fun d => endOfMonth d)]

/-- The exact-match branch of `deadline_parser.DeadlineParser.parse`, which
fires first and is the branch taken for every phrase of the canonical table
(`if phrase_lower in self.RELATIVE_PATTERNS: return ...[phrase_lower](ref)`). -/
def parseRelative (phrase : String) (ref : PyDate) : Option PyDate :=
  (RELATIVE_PATTERNS.find? (fun p => p.1 == phrase)).map (fun p => p.2 ref)

theorem PyDate.le_refl (d : PyDate) : d.le d := by
  unfold PyDate.le; exact Or.inr ⟨rfl, Or.inr ⟨rfl, Nat.le_refl _⟩⟩

theorem PyDate.le_trans {a b c : PyDate} (h1 : a.le b) (h2 : b.le c) :
    a.le c := by
  unfold PyDate.le at *
  rcases h1 with h1 | ⟨hy1, h1⟩
  · rcases h2 with h2 | ⟨hy2, _⟩
    · exact Or.inl (lt_trans h1 h2)
    · exact Or.inl (hy2 ▸ h1)
  · rcases h2 with h2 | ⟨hy2, h2⟩
    · exact Or.inl (hy1 ▸ h2)
    · refine Or.inr ⟨hy1.trans hy2, ?_⟩
      rcases h1 with h1 | ⟨hm1, h1⟩
      · rcases h2 with h2 | ⟨hm2, _⟩
        · exact Or.inl (lt_trans h1 h2)
        · exact Or.inl (hm2 ▸ h1)
      · rcases h2 with h2 | ⟨hm2, h2⟩
        · exact Or.inl (hm1 ▸ h2)
        · exact Or.inr ⟨hm1.trans hm2, h1.trans h2⟩

theorem PyDate.le_nextDay (d : PyDate) : d.le (nextDay d) := by
  unfold nextDay PyDate.le
  by_cases h1 : d.day < daysInMonth d.year d.month
  · rw [if_pos h1]
    exact Or.inr ⟨rfl, Or.inr ⟨rfl, Nat.le_succ _⟩⟩
  · rw [if_neg h1]
    by_cases h2 : d.month < 12
    · rw [if_pos h2]
      exact Or.inr ⟨rfl, Or.inl (Nat.lt_succ_self _)⟩
    · rw [if_neg h2]
      exact Or.inl (show d.year < d.year + 1 by omega)

theorem PyDate.le_addDays (d : PyDate) (n : Nat) : d.le (addDays d n) := by
  induction n with
  | zero => exact PyDate.le_refl d
  | succ k ih =>
      have : addDays d (k + 1) = nextDay (addDays d k) := by
        unfold addDays
        exact Function.iterate_succ_apply' nextDay k d
      rw [this]
      exact PyDate.le_trans ih (PyDate.le_nextDay _)

theorem addDays_le_addDays (d : PyDate) {k n : Nat} (h : k ≤ n) :
    (addDays d k).le (addDays d n) := by
  have hsplit : addDays d n = addDays (addDays d k) (n - k) := by
    unfold addDays
    rw [← Function.iterate_add_apply]
    congr 1
    omega
  rw [hsplit]
  exact PyDate.le_addDays _ _

theorem daysInMonth_le_31 (y : Int) (m : Nat) : daysInMonth y m ≤ 31 := by
  unfold daysInMonth
  split <;> split <;> omega

theorem addDays_within_month (y : Int) (m day : Nat) (j : Nat)
    (h : day + j ≤ daysInMonth y m) :
    addDays ⟨y, m, day⟩ j = ⟨y, m, day + j⟩ := by
  induction j with
  | zero => rfl
  | succ k ih =>
      have hk : day + k ≤ daysInMonth y m := by omega
      have hstep : addDays ⟨y, m, day⟩ (k + 1) =
          nextDay (addDays ⟨y, m, day⟩ k) :=
        Function.iterate_succ_apply' nextDay k _
      rw [hstep, ih hk]
      unfold nextDay
      rw [if_pos (show day + k < daysInMonth y m by omega)]
      rfl

theorem endOfMonth_eq (d : PyDate) (h : ValidDate d) :
    endOfMonth d = ⟨d.year, d.month, daysInMonth d.year d.month⟩ := by
  obtain ⟨hm1, hm2, -, -⟩ := h
  unfold endOfMonth firstOfNextMonth
  by_cases h12 : d.month = 12
  · rw [if_pos h12]
    show (⟨d.year + 1 - 1, 12, 31⟩ : PyDate) = _
    rw [h12]
    have hy : d.year + 1 - 1 = d.year := by omega
    rw [hy]
    rfl
  · rw [if_neg h12]
    unfold subOneDay
    rw [if_neg (show ¬ (1 : Nat) < 1 by omega),
      if_pos (show 1 < d.month + 1 by omega)]
    simp

theorem weekday_nonneg (d : PyDate) : 0 ≤ weekday d :=
  Int.emod_nonneg _ (by decide)

theorem weekday_lt_7 (d : PyDate) : weekday d < 7 :=
  Int.emod_lt_of_pos _ (by decide)

theorem nextWeekday_bounds (d : PyDate) (wd : Int)
    (h0 : 0 ≤ wd) (h6 : wd ≤ 6) :
    d.le (nextWeekday d wd) ∧ (nextWeekday d wd).le (addDays d 365) := by
  have hw0 := weekday_nonneg d
  have hw7 := weekday_lt_7 d
  unfold nextWeekday
  set a := wd - weekday d with ha
  set a2 := if a ≤ 0 then a + 7 else a with ha2
  have hbound : a2.toNat ≤ 365 := by
    have : a2 ≤ 7 := by
      rw [ha2]
      split <;> omega
    omega
  exact ⟨PyDate.le_addDays _ _, addDays_le_addDays d hbound⟩

theorem endOfWeek_bounds (d : PyDate) :
    d.le (endOfWeek d) ∧ (endOfWeek d).le (addDays d 365) := by
  have hw0 := weekday_nonneg d
  have hw7 := weekday_lt_7 d
  unfold endOfWeek
  set a := 4 - weekday d with ha
  set a2 := if a < 0 then a + 7 else a with ha2
  have hbound : a2.toNat ≤ 365 := by
    have : a2 ≤ 7 := by
      rw [ha2]
      split <;> omega
    omega
  exact ⟨PyDate.le_addDays _ _, addDays_le_addDays d hbound⟩

theorem endOfMonth_bounds (d : PyDate) (h : ValidDate d) :
    d.le (endOfMonth d) ∧ (endOfMonth d).le (addDays d 365) := by
  obtain ⟨hm1, hm2, hd1, hd2⟩ := h
  rw [endOfMonth_eq d ⟨hm1, hm2, hd1, hd2⟩]
  constructor
  · exact Or.inr ⟨rfl, Or.inr ⟨rfl, hd2⟩⟩
  · have heq : addDays d (daysInMonth d.year d.month - d.day) =
        ⟨d.year, d.month, daysInMonth d.year d.month⟩ := by
      have := addDays_within_month d.year d.month d.day
        (daysInMonth d.year d.month - d.day) (by omega)
      rw [show (⟨d.year, d.month, d.day⟩ : PyDate) = d from rfl] at this
      rw [this]
      congr 1
      omega
    rw [← heq]
    exact addDays_le_addDays d
      (le_trans (Nat.sub_le _ _) (le_trans (daysInMonth_le_31 _ _) (by omega)))

/-- Claim C6: every entry of the canonical relative-pattern table maps a
valid reference date `D` to a date `d` with `D ≤ d ≤ D + 365 days`; in
particular `parse("today", D) = D` and `parse("tomorrow", D) = D + 1 day`
(exact-match branch of `DeadlineParser.parse`). -/
theorem C6_relative_patterns (phrase : String) (f : PyDate → PyDate)
    (hmem : (phrase, f) ∈ RELATIVE_PATTERNS) (D : PyDate) (hD : ValidDate D) :
    (D.le (f D) ∧ (f D).le (addDays D 365)) ∧
    parseRelative "today" D = some D ∧
    parseRelative "tomorrow" D = some (addDays D 1) := by
  refine ⟨?_, rfl, rfl⟩
  have hid : D.le D ∧ D.le (addDays D 365) :=
    ⟨PyDate.le_refl D, PyDate.le_addDays D 365⟩
  have hadd : ∀ k : Nat, k ≤ 365 →
      D.le (addDays D k) ∧ (addDays D k).le (addDays D 365) :=
    fun k hk => ⟨PyDate.le_addDays D k, addDays_le_addDays D hk⟩
  fin_cases hmem
  · exact hid
  · exact hid
  · exact hadd 1 (by omega)
  · exact hadd 1 (by omega)
  · exact hadd 1 (by omega)
  · exact hadd 7 (by omega)
  · exact nextWeekday_bounds D 0 (by omega) (by omega)
  · exact nextWeekday_bounds D 1 (by omega) (by omega)
  · exact nextWeekday_bounds D 2 (by omega) (by omega)
  · exact nextWeekday_bounds D 3 (by omega) (by omega)
  · exact nextWeekday_bounds D 4 (by omega) (by omega)
  · exact nextWeekday_bounds D 5 (by omega) (by omega)
  · exact nextWeekday_bounds D 6 (by omega) (by omega)
  · exact endOfWeek_bounds D
  · exact endOfWeek_bounds D
  · exact endOfWeek_bounds D
  · exact endOfMonth_bounds D hD
  · exact endOfMonth_bounds D hD

/-- Claim C6, witness: instantiates `C6_relative_patterns` on the phrase
`"end of month"` and the reference date 2026-01-15. -/
theorem C6_witness :
    ((⟨2026, 1, 15⟩ : PyDate).le (endOfMonth ⟨2026, 1, 15⟩) ∧
      (endOfMonth ⟨2026, 1, 15⟩).le (addDays ⟨2026, 1, 15⟩ 365)) ∧
    parseRelative "today" ⟨2026, 1, 15⟩ = some ⟨2026, 1, 15⟩ ∧
    parseRelative "tomorrow" ⟨2026, 1, 15⟩ =
      some (addDays ⟨2026, 1, 15⟩ 1) := by
  exact C6_relative_patterns "end of month" (fun d => endOfMonth d)
    (by simp [RELATIVE_PATTERNS]) ⟨2026, 1, 15⟩ (by decide)

/-- First-occurrence deduplication with an accumulator of already-seen
elements (models Python dict-key / set insertion order: first insertion
fixes the position). -/
def dedupFirstAux {α : Type} [DecidableEq α] : List α → List α → List α
  | [], _ => []
  | k :: rest, seen =>
      if k ∈ seen then dedupFirstAux rest seen
      else k :: dedupFirstAux rest (k :: seen)

/-- First-occurrence deduplication. -/
def dedupFirst {α : Type} [DecidableEq α] (l : List α) : List α :=
  dedupFirstAux l []

/-- `assignment_engine.AssignmentEngine.SKILL_KEYWORDS` (declaration order). -/
def SKILL_KEYWORDS : List (String × List String) :=
  [("frontend",
    ["ui", "react", "javascript", "css", "html", "login bug", "button",
     "screen", "page", "form", "component", "interface", "vue", "angular",
     "frontend", "front-end", "client", "browser", "responsive", "fix login"]),
   ("backend",
    ["api", "database", "server", "performance", "optimization", "backend",
     "back-end", "endpoint", "rest", "graphql", "microservice", "cache",
     "query", "sql", "nosql", "mongodb", "postgresql", "mysql",
     "api documentation", "documentation", "optimize database"]),
   ("design",
    ["design", "figma", "onboarding", "ux", "ui/ux", "screens", "mockup",
     "wireframe", "prototype", "user flow", "sketch", "adobe", "visual",
     "layout", "typography", "color", "branding"]),
   ("qa",
    ["test", "testing", "quality", "automation", "unit test", "qa",
     "write test", "write unit test", "regression", "integration test",
     "e2e", "selenium", "cypress", "jest", "pytest", "coverage",
     "payment module", "test for"]),
   ("devops",
    ["deploy", "deployment", "ci", "cd", "pipeline", "docker", "kubernetes",
     "aws", "azure", "gcp", "infrastructure", "monitoring", "logging"]),
   ("documentation",
    ["documentation", "docs", "readme", "api docs", "swagger", "openapi",
     "wiki", "guide", "tutorial", "comment"])]

/-- `assignment_engine.AssignmentEngine.ROLE_DOMAINS`. -/
def ROLE_DOMAINS : List (String × List String) :=
  [("frontend", ["frontend", "front-end", "ui developer", "react developer"]),
   ("backend", ["backend", "back-end", "server", "api developer"]),
   ("design", ["designer", "ui/ux", "ux", "ui designer"]),
   ("qa", ["qa", "quality", "tester", "test engineer"]),
   ("devops", ["devops", "sre", "infrastructure", "platform"])]

/-- The `(keyword, domain)` assignments performed by
`AssignmentEngine._build_keyword_index`, in insertion order.  The Python
dict keeps first-insertion key order with last-assignment values. -/
def keywordDomainPairs : List (String × String) :=
  SKILL_KEYWORDS.flatMap (fun p => p.2.map (fun k => (lowerStr k, p.1)))

/-- Value of `self._keyword_to_domain[k]` (last assignment wins). -/
def keywordDomain (k : String) : Option String :=
  (keywordDomainPairs.reverse.find? (fun p => p.1 == k)).map Prod.snd

/-- `AssignmentEngine._extract_domains`: the set of domains whose keyword
occurs in the text, iterating the keyword index in first-insertion key
order and collecting into a set (modelled as a first-occurrence list). -/
def extractDomains (text : String) : List String :=
  dedupFirst ((dedupFirst (keywordDomainPairs.map Prod.fst)).filterMap
    (fun k => if strIn k (lowerStr text) then keywordDomain k else none))

/-- The primary-domain predicate chain of `AssignmentEngine._match_by_skills`. -/
def primaryDomain (task_text : String) : Option String :=
  if strIn "unit test" task_text || strIn "write test" task_text ||
      strIn "testing" task_text then some "qa"
  else if strIn "database" task_text || strIn "api" task_text ||
      strIn "backend" task_text || strIn "documentation" task_text then
    some "backend"
  else if strIn "design" task_text || strIn "onboarding" task_text ||
      strIn "screen" task_text then some "design"
  else if strIn "login" task_text || strIn "bug" task_text ||
      strIn "ui" task_text then some "frontend"
  else none

/-- Inner loop of `AssignmentEngine._calculate_skill_score` for one member
skill: iterate the task domains; a direct domain/skill substring match adds
0.5 and leaves the domain loop; a keyword match adds 0.3 and only leaves the
keyword loop (the domain loop continues).  Returns the score contribution
and the `matched_skills` appends (the skill may be appended repeatedly). -/
def skillDomainScore (skill_lower skill_orig : String) :
    List String → (ℚ × List String)
  | [] => (0, [])
  | dom :: rest =>
      if strIn dom skill_lower || strIn skill_lower dom then
        (0.5, [skill_orig])
      else
        let kws := ((SKILL_KEYWORDS.find? (fun p => p.1 == dom)).map
          Prod.snd).getD []
        if kws.any (fun kw => strIn kw skill_lower || strIn skill_lower kw) then
          let r := skillDomainScore skill_lower skill_orig rest
          (0.3 + r.1, skill_orig :: r.2)
        else skillDomainScore skill_lower skill_orig rest

/-- `AssignmentEngine._calculate_skill_score`: per-skill contributions plus
the role-relevance bonus of 0.4 per task domain whose role keywords occur in
the member role. -/
def calculateSkillScore (task_domains : List String) (member : TeamMember) :
    ℚ × List String :=
  let skillPart := member.skills.foldl
    (fun acc skill =>
      let r := skillDomainScore (lowerStr skill) skill task_domains
      (acc.1 + r.1, acc.2 ++ r.2)) ((0 : ℚ), ([] : List String))
  let role_lower := lowerStr member.role
  let rolePart := task_domains.foldl
    (fun acc dom =>
      if (((ROLE_DOMAINS.find? (fun p => p.1 == dom)).map Prod.snd).getD
          []).any (fun kw => strIn kw role_lower) then acc + 0.4 else acc)
    (0 : ℚ)
  (skillPart.1 + rolePart, skillPart.2)

/-- The primary-domain role-alignment bonus of `_match_by_skills`. -/
def roleBonus (primary : Option String) (role_lower : String) : ℚ :=
  match primary with
  | none => 0
  | some p =>
      if p == "qa" && strIn "qa" role_lower then 2.0
      else if p == "backend" && strIn "backend" role_lower then 1.5
      else if p == "design" && strIn "design" role_lower then 1.5
      else if p == "frontend" && strIn "frontend" role_lower then 1.5
      else 0

/-- Total score of one member inside the `_match_by_skills` loop. -/
def memberScore (task_domains : List String) (primary : Option String)
    (member : TeamMember) : ℚ × List String :=
  let base := calculateSkillScore task_domains member
  (base.1 + roleBonus primary (lowerStr member.role), base.2)

/-- The best-member selection loop of `_match_by_skills`: `best_score`
starts at 0.0 and only strict improvements (`score > best_score`) replace
the best member, so the first maximal member wins. -/
def bestMember (members : List TeamMember) (task_domains : List String)
    (primary : Option String) : Option (TeamMember × ℚ × List String) :=
  members.foldl
    (fun best m =>
      let r := memberScore task_domains primary m
      match best with
      | none => if 0 < r.1 then some (m, r.1, r.2) else none
      | some (bm, bs, bsk) =>
          if bs < r.1 then some (m, r.1, r.2) else some (bm, bs, bsk))
    none

/-- `models.AssignmentResult` (confidence as an exact rational). -/
structure AssignmentResult where
  team_member : Option TeamMember := none
  reasoning : String := ""
  confidence : ℚ := 0
deriving DecidableEq, Repr

/-- `AssignmentEngine._generate_skill_reasoning` (the Python `set(...)` join
orders are modelled as first-occurrence order). -/
def skillReasoning (member : TeamMember) (matched_skills : List String)
    (task_domains : List String) : String :=
  let parts :=
    (if ¬ matched_skills.isEmpty then
      ["Matched skills: " ++ String.intercalate ", " (dedupFirst matched_skills)]
    else []) ++
    (if ¬ task_domains.isEmpty then
      ["Task domains: " ++ String.intercalate ", " task_domains]
    else []) ++
    ["Role: " ++ member.role]
  String.intercalate "; " parts

/-- A team store, `team_store.TeamMemberStore`: the members in insertion
order (`_members.values()`); `find_by_name` keys are lowered stripped names. -/
def memberKey (m : TeamMember) : String := stripStr (lowerStr m.name)

/-- `team_store.TeamMemberStore.find_by_name`: exact key match first, then
the first partial (either-direction substring) match in insertion order. -/
def find_by_name (store : List TeamMember) (name : String) : Option TeamMember :=
  let search_name := stripStr (lowerStr name)
  match store.find? (fun m => memberKey m == search_name) with
  | some m => some m
  | none => store.find? (fun m =>
      strIn search_name (memberKey m) || strIn (memberKey m) search_name)

/-- `AssignmentEngine._match_by_explicit_mention`.  The Python guard
`if not task.mentioned_person` is falsy for both `None` and the empty
string. -/
def matchByExplicitMention (task : ExtractedTask) (store : List TeamMember) :
    Option AssignmentResult :=
  match task.mentioned_person with
  | none => none
  | some p =>
      if p.isEmpty then none
      else match find_by_name store p with
        | some member =>
            some { team_member := some member,
                   reasoning := "Explicitly mentioned in task: \x27" ++ p ++ "\x27",
                   confidence := 1.0 }
        | none => none

/-- `AssignmentEngine._match_by_skills`. -/
def matchBySkills (task : ExtractedTask) (store : List TeamMember) :
    Option AssignmentResult :=
  let task_text := lowerStr (task.description ++ " " ++ task.raw_text)
  let task_domains := extractDomains task_text
  if task_domains.isEmpty then none
  else
    let primary := primaryDomain task_text
    match bestMember store task_domains primary with
    | none => none
    | some (m, s, sk) =>
        some { team_member := some m,
               reasoning := skillReasoning m sk task_domains,
               confidence := min s 1.0 }

/-- `AssignmentEngine.assign`.  `_match_by_explicit_mention` and
`_match_by_skills` return `some` only with `team_member` set, which mirrors
the `result and result.team_member` guards of the source. -/
def assign (task : ExtractedTask) (store : List TeamMember) :
    AssignmentResult :=
  match matchByExplicitMention task store with
  | some r => r
  | none =>
      match matchBySkills task store with
      | some r => r
      | none =>
          { team_member := none,
            reasoning := "No suitable team member found for this task",
            confidence := 0.0 }

theorem bestMember_pos (members : List TeamMember)
    (task_domains : List String) (primary : Option String)
    (m : TeamMember) (s : ℚ) (sk : List String)
    (h : bestMember members task_domains primary = some (m, s, sk)) :
    0 < s := by
  unfold bestMember at h
  suffices hgen : ∀ (acc : Option (TeamMember × ℚ × List String)),
      (∀ m0 s0 sk0, acc = some (m0, s0, sk0) → 0 < s0) →
      (members.foldl
        (fun best m0 =>
          let r := memberScore task_domains primary m0
          match best with
          | none => if 0 < r.1 then some (m0, r.1, r.2) else none
          | some (bm, bs, bsk) =>
              if bs < r.1 then some (m0, r.1, r.2) else some (bm, bs, bsk))
        acc = some (m, s, sk)) → 0 < s by
    exact hgen none (by intro _ _ _ hx; cases hx) h
  clear h
  induction members with
  | nil =>
      intro acc hacc h
      exact hacc m s sk h
  | cons hd tl ih =>
      intro acc hacc h
      rw [List.foldl_cons] at h
      refine ih _ ?_ h
      intro m0 s0 sk0 hx
      rcases acc with _ | ⟨bm, bs, bsk⟩
      · dsimp only at hx
        by_cases h0 : 0 < (memberScore task_domains primary hd).1
        · rw [if_pos h0] at hx
          cases hx
          exact h0
        · rw [if_neg h0] at hx
          cases hx
      · dsimp only at hx
        by_cases hlt : bs < (memberScore task_domains primary hd).1
        · rw [if_pos hlt] at hx
          cases hx
          exact lt_trans (hacc bm bs bsk rfl) hlt
        · rw [if_neg hlt] at hx
          cases hx
          exact hacc _ _ _ rfl

/-- Claim C3, counterexample: with no mentioned person at all, the task
"optimize the database" assigned against a store holding one backend
developer reaches a skill score above 1.0, which `min(best_score, 1.0)`
clamps to confidence exactly 1.0 — so confidence 1.0 is not reserved for
explicit-mention matches. -/
theorem C3_counterexample :
    (assign { description := "optimize the database",
              raw_text := "optimize the database" }
        [mkTeamMember "Bob" "backend developer" ["sql"]]).confidence = 1 ∧
    (assign { description := "optimize the database",
              raw_text := "optimize the database" }
        [mkTeamMember "Bob" "backend developer" ["sql"]]).team_member =
      some (mkTeamMember "Bob" "backend developer" ["sql"]) ∧
    ({ description := "optimize the database",
       raw_text := "optimize the database" } :
        ExtractedTask).mentioned_person = none := by
  refine ⟨by with_unfolding_all rfl, by with_unfolding_all rfl, rfl⟩

/-- Claim C3, amended: `AssignmentEngine.assign` always returns a confidence
in `[0, 1]`; an explicit mention resolving to a known member always yields
that member with confidence exactly 1.0, bypassing skill scoring; and
confidence exactly 1.0 occurs only when the mention resolved (explicit
match) **or** the best skill score reached at least 1.0 and was clamped. -/
theorem C3_amended (task : ExtractedTask) (store : List TeamMember) :
    (0 ≤ (assign task store).confidence ∧ (assign task store).confidence ≤ 1) ∧
    (∀ p member, task.mentioned_person = some p → p ≠ "" →
      find_by_name store p = some member →
      assign task store =
        { team_member := some member,
          reasoning := "Explicitly mentioned in task: \x27" ++ p ++ "\x27",
          confidence := 1.0 }) ∧
    ((assign task store).confidence = 1 →
      (matchByExplicitMention task store).isSome = true ∨
      (∃ m s sk, bestMember store
          (extractDomains (lowerStr (task.description ++ " " ++ task.raw_text)))
          (primaryDomain (lowerStr (task.description ++ " " ++ task.raw_text)))
          = some (m, s, sk) ∧ 1 ≤ s)) := by
  have hone : (1.0 : ℚ) = 1 := by norm_num
  have hskills : ∀ r, matchBySkills task store = some r →
      ∃ m s sk, bestMember store
          (extractDomains (lowerStr (task.description ++ " " ++ task.raw_text)))
          (primaryDomain (lowerStr (task.description ++ " " ++ task.raw_text)))
          = some (m, s, sk) ∧
        r = { team_member := some m,
              reasoning := skillReasoning m sk
                (extractDomains (lowerStr
                  (task.description ++ " " ++ task.raw_text))),
              confidence := min s 1.0 } := by
    intro r hs
    unfold matchBySkills at hs
    dsimp only at hs
    split at hs
    · cases hs
    · split at hs
      · cases hs
      · next m s sk hb =>
          cases hs
          exact ⟨m, s, sk, hb, rfl⟩
  have hexplicit : ∀ r, matchByExplicitMention task store = some r →
      r.confidence = 1 := by
    intro r he
    unfold matchByExplicitMention at he
    rcases hm : task.mentioned_person with _ | p <;> rw [hm] at he
    · cases he
    · dsimp only at he
      by_cases hp : p.isEmpty
      · rw [if_pos hp] at he
        cases he
      · rw [if_neg hp] at he
        rcases hf : find_by_name store p with _ | member <;> rw [hf] at he
        · cases he
        · cases he
          exact hone
  refine ⟨?_, ?_, ?_⟩
  · unfold assign
    rcases he : matchByExplicitMention task store with _ | r
    · rcases hs : matchBySkills task store with _ | r
      · norm_num
      · obtain ⟨m, s, sk, hb, rfl⟩ := hskills r hs
        have hpos := bestMember_pos _ _ _ _ _ _ hb
        dsimp only
        constructor
        · exact le_min (by linarith) (by norm_num)
        · rw [hone]
          exact min_le_right _ _
    · rw [hexplicit r he]
      norm_num
  · intro p member hp hne hf
    unfold assign matchByExplicitMention
    rw [hp]
    dsimp only
    rw [if_neg (fun h => hne ((String.isEmpty_iff _).mp h)), hf]
  · intro hconf
    unfold assign at hconf
    rcases he : matchByExplicitMention task store with _ | r <;>
      rw [he] at hconf
    · rcases hs : matchBySkills task store with _ | r <;> rw [hs] at hconf
      · norm_num at hconf
      · right
        obtain ⟨m, s, sk, hb, rfl⟩ := hskills r hs
        refine ⟨m, s, sk, hb, ?_⟩
        dsimp only at hconf
        rw [hone] at hconf
        by_contra hlt
        push_neg at hlt
        rw [min_eq_left (by linarith)] at hconf
        exact absurd hconf (by linarith)
    · exact Or.inl rfl

/-- Claim C3, witness: instantiates `C3_amended`, discharging the explicit
mention hypotheses on a concrete task and store. -/
theorem C3_witness :
    assign { description := "ship the release notes",
             raw_text := "Dana should ship the release notes",
             mentioned_person := some "Dana" }
        [mkTeamMember "Dana" "writer" ["docs"]] =
      { team_member := some (mkTeamMember "Dana" "writer" ["docs"]),
        reasoning := "Explicitly mentioned in task: \x27Dana\x27",
        confidence := 1.0 } := by
  exact (C3_amended _ _).2.1 "Dana" (mkTeamMember "Dana" "writer" ["docs"])
    rfl (by decide) (by decide)

/-- A JSON object as produced by `OutputSerializer.to_dict`: all seven keys
present, values of the types the source writes.  Python `json.dumps` /
`json.loads` round-trip such objects losslessly, so JSON serialization is
modelled at this structured level. -/
structure TaskDict where
  task_number : Int
  description : String
  assigned_to : Option String
  deadline : Option String
  priority : String
  dependencies : Option String
  reasoning : Option String
deriving DecidableEq, Repr

/-- `output_serializer.OutputSerializer.to_dict`. -/
def toDict (task : TaskOutput) : TaskDict :=
  { task_number := task.task_number,
    description := task.description,
    assigned_to := task.assigned_to,
    deadline := task.deadline,
    priority := task.priority,
    dependencies := task.dependencies,
    reasoning := task.reasoning }

/-- `models.TaskOutput.from_dict` on a dictionary with all keys present
(the `data.get` defaults never fire on the output of `to_dict`). -/
def fromDict (data : TaskDict) : TaskOutput :=
  { task_number := data.task_number,
    description := data.description,
    assigned_to := data.assigned_to,
    deadline := data.deadline,
    priority := data.priority,
    dependencies := data.dependencies,
    reasoning := data.reasoning }

/-- `OutputSerializer.serialize` (the task dictionaries handed to
`json.dumps`). -/
def serializeTasks (tasks : List TaskOutput) : List TaskDict :=
  tasks.map toDict

/-- `OutputSerializer.deserialize`, list branch (the parsed JSON array
mapped through `TaskOutput.from_dict`). -/
def deserializeTasks (data : List TaskDict) : List TaskOutput :=
  data.map fromDict

/-- Decimal digit character, `chr(48 + d)`. -/
def digitChar (d : Nat) : Char := Char.ofNat (48 + d)

/-- Python `str()` of a non-negative integer (decimal digits). -/
def pyNatStr (n : Nat) : String :=
  if _h : n < 10 then String.mk [digitChar n]
  else pyNatStr (n / 10) ++ String.mk [digitChar (n % 10)]
termination_by n
decreasing_by exact Nat.div_lt_self (by omega) (by omega)

/-- Python `str()` of an integer, as `csv.writer` stringifies
`task.task_number`. -/
def pyIntStr (n : Int) : String :=
  if n < 0 then "-" ++ pyNatStr (-n).toNat else pyNatStr n.toNat

/-- The header row written by `OutputSerializer.serialize_to_csv`. -/
def CSV_HEADER : List String :=
  ["Task Number", "Description", "Assigned To", "Deadline", "Priority",
   "Dependencies", "Reasoning"]

/-- One data row of `OutputSerializer.serialize_to_csv`
(`task.assigned_to or ''` etc. collapse `None` and `''` to `''`). -/
def csvRow (task : TaskOutput) : List String :=
  [pyIntStr task.task_number,
   task.description,
   task.assigned_to.getD "",
   task.deadline.getD "",
   task.priority,
   task.dependencies.getD "",
   task.reasoning.getD ""]

/-- `OutputSerializer.serialize_to_csv`, modelled at the row level (the
`csv` module's quoting of individual cells is an invertible encoding). -/
def serializeToCsv (tasks : List TaskOutput) : List (List String) :=
  CSV_HEADER :: tasks.map csvRow

/-- Value of a decimal digit character. -/
def digitVal (c : Char) : Option Nat :=
  if 48 ≤ c.toNat ∧ c.toNat ≤ 57 then some (c.toNat - 48) else none

/-- Accumulating decimal parser. -/
def parseNatAux (acc : Nat) : List Char → Option Nat
  | [] => some acc
  | c :: rest =>
      match digitVal c with
      | some d => parseNatAux (10 * acc + d) rest
      | none => none

/-- Parse a non-empty all-digit character list. -/
def parseNatList (l : List Char) : Option Nat :=
  match l with
  | [] => none
  | _ :: _ => parseNatAux 0 l

/-- Modelled from the spec: the repository ships no CSV deserializer (the
spec property "Serializing a TaskRecord sequence to JSON/CSV and parsing it
back yields an equivalent sequence" presumes one), so the evident integer
reader for the `str(int)` cells is modelled here. -/
def parseIntStr (s : String) : Option Int :=
  match s.toList with
  | [] => none
  | c :: rest =>
      if c = '-' then (parseNatList rest).map (fun m => -(m : Int))
      else (parseNatList (c :: rest)).map (fun m => (m : Int))

/-- Modelled from the spec: one CSV data row read back into a `TaskOutput`,
with an empty optional cell read as `None` (the repository has no CSV
deserializer; this is the evident inverse the spec property presumes). -/
def parseCsvRow (row : List String) : Option TaskOutput :=
  match row with
  | [num, desc, assigned, deadline, prio, deps, reason] =>
      (parseIntStr num).map (fun n =>
        { task_number := n,
          description := desc,
          assigned_to := if assigned = "" then none else some assigned,
          deadline := if deadline = "" then none else some deadline,
          priority := prio,
          dependencies := if deps = "" then none else some deps,
          reasoning := if reason = "" then none else some reason })
  | _ => none

/-- Modelled from the spec: parse a CSV table (header row skipped) back into
the task sequence. -/
def parseCsv (rows : List (List String)) : Option (List TaskOutput) :=
  match rows with
  | [] => none
  | _ :: body => body.mapM parseCsvRow

/-- Tasks whose optional string fields are never the **empty** string: on
these the CSV `None`/`''` collapse is harmless. -/
def CsvClean (t : TaskOutput) : Prop :=
  t.assigned_to ≠ some "" ∧ t.deadline ≠ some "" ∧
    t.dependencies ≠ some "" ∧ t.reasoning ≠ some ""

instance : DecidablePred CsvClean := fun t => by
  unfold CsvClean; infer_instance

/-- Power of ten matching the digit count of `pyNatStr`. -/
def tenPow (n : Nat) : Nat :=
  if n < 10 then 10 else tenPow (n / 10) * 10
termination_by n
decreasing_by exact Nat.div_lt_self (by omega) (by omega)

theorem parseNatAux_append (acc : Nat) (l1 l2 : List Char) :
    parseNatAux acc (l1 ++ l2) =
      match parseNatAux acc l1 with
      | some a => parseNatAux a l2
      | none => none := by
  induction l1 generalizing acc with
  | nil => rfl
  | cons c rest ih =>
      simp only [List.cons_append, parseNatAux]
      rcases hd : digitVal c with _ | d
      · rfl
      · exact ih _

theorem digitVal_digitChar (n : Nat) (h : n < 10) :
    digitVal (digitChar n) = some n := by
  interval_cases n <;> decide

theorem parseNatAux_pyNatStr (n : Nat) :
    ∀ acc, parseNatAux acc (pyNatStr n).toList = some (acc * tenPow n + n) := by
  induction n using Nat.strong_induction_on with
  | _ n ih =>
      intro acc
      by_cases h : n < 10
      · rw [pyNatStr, dif_pos h, tenPow, if_pos h]
        show parseNatAux acc [digitChar n] = _
        simp only [parseNatAux, digitVal_digitChar n h]
        norm_num
        omega
      · rw [pyNatStr, dif_neg h, tenPow, if_neg h]
        rw [show ((pyNatStr (n / 10) ++ String.mk [digitChar (n % 10)]).toList =
          (pyNatStr (n / 10)).toList ++ [digitChar (n % 10)]) from rfl]
        rw [parseNatAux_append]
        rw [ih (n / 10) (Nat.div_lt_self (by omega) (by omega)) acc]
        show parseNatAux (acc * tenPow (n / 10) + n / 10) [digitChar (n % 10)] = _
        simp only [parseNatAux, digitVal_digitChar (n % 10) (Nat.mod_lt _ (by omega))]
        have hdm : 10 * (n / 10) + n % 10 = n := by omega
        congr 1
        ring_nf
        omega

theorem pyNatStr_head (n : Nat) :
    ∃ c rest, (pyNatStr n).toList = c :: rest ∧ digitVal c ≠ none := by
  induction n using Nat.strong_induction_on with
  | _ n ih =>
      by_cases h : n < 10
      · refine ⟨digitChar n, [], ?_, ?_⟩
        · rw [pyNatStr, dif_pos h]
          rfl
        · rw [digitVal_digitChar n h]
          exact Option.noConfusion
      · obtain ⟨c, rest, hcr, hd⟩ := ih (n / 10) (Nat.div_lt_self (by omega) (by omega))
        refine ⟨c, rest ++ [digitChar (n % 10)], ?_, hd⟩
        rw [pyNatStr, dif_neg h]
        show (pyNatStr (n / 10)).toList ++ [digitChar (n % 10)] = _
        rw [hcr]
        rfl

theorem parseNatList_pyNatStr (n : Nat) :
    parseNatList (pyNatStr n).toList = some n := by
  obtain ⟨c, rest, hcr, -⟩ := pyNatStr_head n
  rw [hcr]
  show parseNatAux 0 (c :: rest) = some n
  rw [← hcr]
  rw [parseNatAux_pyNatStr n 0]
  norm_num

theorem parseIntStr_pyIntStr (n : Int) : parseIntStr (pyIntStr n) = some n := by
  by_cases hneg : n < 0
  · rw [pyIntStr, if_pos hneg]
    have hlist : ("-" ++ pyNatStr (-n).toNat).toList =
        '-' :: (pyNatStr (-n).toNat).toList := rfl
    rw [parseIntStr, hlist]
    dsimp only
    rw [if_pos rfl, parseNatList_pyNatStr]
    show some (-(((-n).toNat : Nat) : Int)) = some n
    congr 1
    omega
  · rw [pyIntStr, if_neg hneg]
    obtain ⟨c, rest, hcr, hd⟩ := pyNatStr_head n.toNat
    have hcne : c ≠ '-' := by
      intro hc
      apply hd
      rw [hc]
      decide
    rw [parseIntStr, hcr]
    dsimp only
    rw [if_neg hcne, ← hcr, parseNatList_pyNatStr]
    show some ((n.toNat : Nat) : Int) = some n
    congr 1
    omega

/-- Claim C7, counterexample: two different task lists (reasoning `None`
versus reasoning `''`) serialize to the identical CSV table, so no CSV
parser can map the serialized form back to an equivalent sequence for every
input; the claim as stated is false for the CSV format. -/
theorem C7_counterexample :
    serializeToCsv [{ task_number := 1, description := "d",
                      reasoning := none }] =
      serializeToCsv [{ task_number := 1, description := "d",
                        reasoning := some "" }] ∧
    ({ task_number := 1, description := "d", reasoning := none } :
        TaskOutput) ≠
      { task_number := 1, description := "d", reasoning := some "" } := by
  constructor
  · rfl
  · decide

/-- Claim C7, amended: serializing a `TaskOutput` list to JSON and parsing
it back yields the original sequence (all fields, same order); serializing
to CSV and parsing it back yields the original sequence **provided** no
optional field holds the empty string (CSV writes `None` and `''` both as an
empty cell, which the reader maps back to `None`; the repository itself has
no CSV deserializer). -/
theorem C7_amended (ts : List TaskOutput) (h : ∀ t ∈ ts, CsvClean t) :
    deserializeTasks (serializeTasks ts) = ts ∧
    parseCsv (serializeToCsv ts) = some ts := by
  constructor
  · show List.map fromDict (List.map toDict ts) = ts
    rw [List.map_map]
    exact List.map_id ts
  · show List.mapM parseCsvRow (ts.map csvRow) = some ts
    induction ts with
    | nil => rfl
    | cons t rest ih =>
        have hclean := h t (List.mem_cons_self t rest)
        have hrow : parseCsvRow (csvRow t) = some t := by
          obtain ⟨h1, h2, h3, h4⟩ := hclean
          show (parseIntStr (pyIntStr t.task_number)).map _ = some t
          rw [parseIntStr_pyIntStr, Option.map_some']
          congr 1
          rcases ha : t.assigned_to with _ | a <;>
            rcases hb : t.deadline with _ | b <;>
              rcases hc : t.dependencies with _ | c <;>
                rcases hd : t.reasoning with _ | d <;>
            simp_all [Option.getD] <;>
            cases t <;> simp_all
        simp only [List.map_cons, List.mapM_cons, hrow, Option.bind_eq_bind,
          Option.some_bind]
        rw [ih (fun x hx => h x (List.mem_cons_of_mem t hx))]
        rfl

/-- Claim C7, witness: instantiates `C7_amended` on a concrete two-task
list. -/
theorem C7_witness :
    deserializeTasks (serializeTasks
      [{ task_number := 1, description := "write docs",
         assigned_to := some "Amy", priority := "High" },
       { task_number := 2, description := "fix bug",
         reasoning := some "skill match" }]) =
      [{ task_number := 1, description := "write docs",
         assigned_to := some "Amy", priority := "High" },
       { task_number := 2, description := "fix bug",
         reasoning := some "skill match" }] ∧
    parseCsv (serializeToCsv
      [{ task_number := 1, description := "write docs",
         assigned_to := some "Amy", priority := "High" },
       { task_number := 2, description := "fix bug",
         reasoning := some "skill match" }]) =
      some [{ task_number := 1, description := "write docs",
              assigned_to := some "Amy", priority := "High" },
            { task_number := 2, description := "fix bug",
              reasoning := some "skill match" }] := by
  exact C7_amended _ (by decide)

/-- Adjacency map built by `dependency_resolver.DependencyResolver.
get_dependency_order`: `graph[dep.prerequisite].add(dep.dependent)`.  The
Python dict of sets over keys `range(num_tasks)` is modelled as a total
function (insertion-ordered set, missing key = empty). -/
def buildGraph (deps : List TaskDependency) : Nat → List Nat :=
  deps.foldl
    (fun g d => fun u =>
      if u = d.prerequisite_task_index then
        (if d.dependent_task_index ∈ g u then g u
         else g u ++ [d.dependent_task_index])
      else g u)
    (fun _ => [])

/-- In-degree map of `get_dependency_order`:
`in_degree[dep.dependent] += 1` per dependency record. -/
def buildIndeg (deps : List TaskDependency) : Nat → Int :=
  deps.foldl
    (fun f d => fun v =>
      if v = d.dependent_task_index then f v + 1 else f v)
    (fun _ => 0)

/-- Inner `for neighbor in graph[node]` loop of Kahn's algorithm: decrement
each neighbor's in-degree and enqueue it exactly when it reaches zero. -/
def processNeighbors : List Nat → List Nat → (Nat → Int) →
    (List Nat × (Nat → Int))
  | [], queue, indeg => (queue, indeg)
  | nb :: rest, queue, indeg =>
      let indeg2 : Nat → Int := fun v => if v = nb then indeg v - 1 else indeg v
      let queue2 := if indeg2 nb = 0 then queue ++ [nb] else queue
      processNeighbors rest queue2 indeg2

/-- The `while queue:` loop of `get_dependency_order` with explicit fuel;
`num_tasks + 1` units of fuel provably drain the queue (each iteration
appends one fresh index below `num_tasks` to `result`), so the fueled loop
coincides with the Python `while`. -/
def kahnLoop (graph : Nat → List Nat) :
    Nat → List Nat → (Nat → Int) → List Nat →
      (List Nat × List Nat × (Nat → Int))
  | 0, queue, indeg, res => (res, queue, indeg)
  | _ + 1, [], indeg, res => (res, [], indeg)
  | fuel + 1, node :: rest, indeg, res =>
      let p := processNeighbors (graph node) rest indeg
      kahnLoop graph fuel p.1 p.2 (res ++ [node])

/-- `dependency_resolver.DependencyResolver.get_dependency_order`. -/
def get_dependency_order (num_tasks : Nat) (deps : List TaskDependency) :
    List Nat :=
  let graph := buildGraph deps
  let indeg := buildIndeg deps
  let queue := (List.range num_tasks).filter (fun i => indeg i = 0)
  let result := (kahnLoop graph (num_tasks + 1) queue indeg []).1
  if result.length ≠ num_tasks then
    result ++ (List.range num_tasks).filter (fun i => i ∉ result)
  else result

/-- The dependent→prerequisite edge relation induced by a dependency list
(the direction named by the spec). -/
def DepEdge (deps : List TaskDependency) (a b : Nat) : Prop :=
  ∃ d ∈ deps, d.dependent_task_index = a ∧ d.prerequisite_task_index = b

theorem buildGraph_nodup (deps : List TaskDependency) (u : Nat) :
    (buildGraph deps u).Nodup := by
  unfold buildGraph
  suffices hgen : ∀ (g : Nat → List Nat), (∀ w, (g w).Nodup) →
      ∀ w, ((deps.foldl
        (fun g d => fun u =>
          if u = d.prerequisite_task_index then
            (if d.dependent_task_index ∈ g u then g u
             else g u ++ [d.dependent_task_index])
          else g u) g) w).Nodup by
    exact hgen _ (fun _ => List.nodup_nil) u
  induction deps with
  | nil => exact fun g hg => hg
  | cons d rest ih =>
      intro g hg w
      rw [List.foldl_cons]
      refine ih _ ?_ w
      intro w2
      by_cases h1 : w2 = d.prerequisite_task_index
      · rw [if_pos h1]
        by_cases h2 : d.dependent_task_index ∈ g w2
        · rw [if_pos h2]
          exact hg w2
        · rw [if_neg h2]
          exact (hg w2).append (List.nodup_singleton _)
            (by simpa [List.disjoint_singleton] using h2)
      · rw [if_neg h1]
        exact hg w2

theorem buildGraph_mem (deps : List TaskDependency) (u v : Nat) :
    v ∈ buildGraph deps u ↔
      ∃ d ∈ deps, d.prerequisite_task_index = u ∧
        d.dependent_task_index = v := by
  unfold buildGraph
  suffices hgen : ∀ (g : Nat → List Nat),
      (v ∈ (deps.foldl
        (fun g d => fun u =>
          if u = d.prerequisite_task_index then
            (if d.dependent_task_index ∈ g u then g u
             else g u ++ [d.dependent_task_index])
          else g u) g) u ↔
        v ∈ g u ∨ ∃ d ∈ deps, d.prerequisite_task_index = u ∧
          d.dependent_task_index = v) by
    rw [hgen (fun _ => [])]
    simp
  induction deps with
  | nil => simp
  | cons d rest ih =>
      intro g
      rw [List.foldl_cons, ih]
      constructor
      · rintro (hin | ⟨d2, hd2, h1, h2⟩)
        · by_cases h1 : u = d.prerequisite_task_index
          · rw [if_pos h1] at hin
            by_cases h2 : d.dependent_task_index ∈ g u
            · rw [if_pos h2] at hin
              exact Or.inl hin
            · rw [if_neg h2] at hin
              rcases List.mem_append.mp hin with hin | hin
              · exact Or.inl hin
              · right
                exact ⟨d, List.mem_cons_self d rest, h1.symm,
                  (List.mem_singleton.mp hin).symm⟩
          · rw [if_neg h1] at hin
            exact Or.inl hin
        · exact Or.inr ⟨d2, List.mem_cons_of_mem d hd2, h1, h2⟩
      · rintro (hin | ⟨d2, hd2, h1, h2⟩)
        · left
          by_cases h1 : u = d.prerequisite_task_index
          · rw [if_pos h1]
            by_cases h2 : d.dependent_task_index ∈ g u
            · rw [if_pos h2]
              exact hin
            · rw [if_neg h2]
              exact List.mem_append_left _ hin
          · rw [if_neg h1]
            exact hin
        · rcases List.mem_cons.mp hd2 with rfl | hd2
          · left
            rw [if_pos h1.symm]
            by_cases h3 : d2.dependent_task_index ∈ g u
            · rw [if_pos h3]
              exact h2 ▸ h3
            · rw [if_neg h3]
              exact List.mem_append_right _ (h2 ▸ List.mem_singleton_self _)
          · exact Or.inr ⟨d2, hd2, h1, h2⟩

theorem buildIndeg_eq (deps : List TaskDependency) (v : Nat) :
    buildIndeg deps v =
      ((deps.filter (fun d => d.dependent_task_index = v)).length : Int) := by
  unfold buildIndeg
  suffices hgen : ∀ (f : Nat → Int),
      (deps.foldl
        (fun f d => fun v =>
          if v = d.dependent_task_index then f v + 1 else f v) f) v =
        f v + ((deps.filter (fun d => d.dependent_task_index = v)).length : Int) by
    rw [hgen (fun _ => 0)]
    norm_num
  induction deps with
  | nil => simp
  | cons d rest ih =>
      intro f
      rw [List.foldl_cons, ih]
      by_cases h : v = d.dependent_task_index
      · rw [if_pos h]
        rw [List.filter_cons_of_pos (by simpa using h.symm)]
        simp only [List.length_cons]
        push_cast
        ring
      · rw [if_neg h]
        rw [List.filter_cons_of_neg (by simpa using fun he => h he.symm)]

theorem buildGraph_range (deps : List TaskDependency) (n : Nat)
    (hrange : ∀ d ∈ deps, d.dependent_task_index < n ∧
      d.prerequisite_task_index < n) :
    ∀ u v, v ∈ buildGraph deps u → v < n := by
  intro u v hv
  obtain ⟨d, hd, -, h2⟩ := (buildGraph_mem deps u v).mp hv
  exact h2 ▸ (hrange d hd).1

theorem processNeighbors_indeg :
    ∀ (nbs : List Nat), nbs.Nodup → ∀ (q : List Nat) (ind : Nat → Int) (v : Nat),
      (processNeighbors nbs q ind).2 v = ind v - (if v ∈ nbs then 1 else 0)
  | [], _, q, ind, v => by simp [processNeighbors]
  | nb :: rest, hnd, q, ind, v => by
      obtain ⟨hnb, hrest⟩ := List.nodup_cons.mp hnd
      show (processNeighbors rest _ _).2 v = _
      rw [processNeighbors_indeg rest hrest]
      by_cases hv : v = nb
      · subst hv
        rw [if_neg hnb, if_pos (List.mem_cons_self _ _), if_pos rfl]
        ring
      · rw [if_neg hv]
        by_cases hm : v ∈ rest
        · rw [if_pos hm, if_pos (List.mem_cons_of_mem _ hm)]
        · rw [if_neg hm, if_neg (by simp [List.mem_cons, hv, hm])]

theorem processNeighbors_queue :
    ∀ (nbs : List Nat), nbs.Nodup → ∀ (q : List Nat) (ind : Nat → Int),
      (processNeighbors nbs q ind).1 =
        q ++ nbs.filter (fun v => ind v == 1)
  | [], _, q, ind => by simp [processNeighbors]
  | nb :: rest, hnd, q, ind => by
      obtain ⟨hnb, hrest⟩ := List.nodup_cons.mp hnd
      show (processNeighbors rest
        (if (if nb = nb then ind nb - 1 else ind nb) = 0 then q ++ [nb] else q)
        (fun v => if v = nb then ind v - 1 else ind v)).1 = _
      rw [processNeighbors_queue rest hrest]
      have hcong : rest.filter
          (fun v => (if v = nb then ind v - 1 else ind v) == 1) =
          rest.filter (fun v => ind v == 1) := by
        refine List.filter_congr ?_
        intro v hv
        have hne : v ≠ nb := fun he => hnb (he ▸ hv)
        rw [if_neg hne]
      rw [hcong, if_pos rfl]
      by_cases h1 : ind nb = 1
      · rw [if_pos (by omega), List.filter_cons_of_pos (by simpa using h1)]
        simp [List.append_assoc]
      · rw [if_neg (by omega), List.filter_cons_of_neg (by simpa using h1)]

section KahnProofs

variable (n : Nat) (graph : Nat → List Nat) (indeg0 : Nat → Int)

/-- Loop invariant of the Kahn queue phase: the emitted prefix and the queue
are disjoint in-range indices, queued or emitted indices have exhausted
their in-degree, the in-degree ledger counts exactly the unprocessed edges,
and any untouched in-range index still has a nonzero ledger entry. -/
structure KahnInv (queue : List Nat) (indeg : Nat → Int) (res : List Nat) :
    Prop where
  nodup : (res ++ queue).Nodup
  nonpos : ∀ v ∈ res ++ queue, indeg v ≤ 0
  inrange : ∀ v ∈ res ++ queue, v < n
  acct : ∀ v, indeg v = indeg0 v -
    ((res.filter (fun u => v ∈ graph u)).length : Int)
  nzout : ∀ v, v < n → v ∉ res ++ queue → indeg v ≠ 0

/-- Order invariant (needs one ledger entry per distinct edge): queued
indices have all their predecessors emitted, and the emitted prefix is
topologically sorted. -/
structure KahnOrd (queue : List Nat) (res : List Nat) : Prop where
  qready : ∀ v ∈ queue, ∀ u, v ∈ graph u → u ∈ res
  ordered : ∀ v ∈ res, ∀ u, v ∈ graph u →
    u ∈ res ∧ res.indexOf u < res.indexOf v

theorem kahn_step_inv (hg_nodup : ∀ u, (graph u).Nodup)
    (hg_range : ∀ u v, v ∈ graph u → v < n)
    (node : Nat) (rest : List Nat) (indeg : Nat → Int) (res : List Nat)
    (hinv : KahnInv n graph indeg0 (node :: rest) indeg res) :
    KahnInv n graph indeg0 (processNeighbors (graph node) rest indeg).1
      (processNeighbors (graph node) rest indeg).2 (res ++ [node]) := by
  have hq := processNeighbors_queue (graph node) (hg_nodup node) rest indeg
  have hind := processNeighbors_indeg (graph node) (hg_nodup node) rest indeg
  set push := (graph node).filter (fun v => indeg v == 1) with hpush
  have hpush_mem : ∀ v ∈ push, v ∈ graph node ∧ indeg v = 1 := by
    intro v hv
    have := List.mem_filter.mp hv
    exact ⟨this.1, by simpa using this.2⟩
  have hO : res ++ node :: rest = (res ++ [node]) ++ rest := by
    simp
  have hOn : ((res ++ [node]) ++ rest).Nodup := hO ▸ hinv.nodup
  have hOmem : ∀ v, v ∈ (res ++ [node]) ++ rest ↔ v ∈ res ++ node :: rest := by
    intro v
    rw [hO]
  refine ⟨?_, ?_, ?_, ?_, ?_⟩
  · rw [hq, ← List.append_assoc]
    refine List.Nodup.append hOn ((hg_nodup node).filter _) ?_
    intro v hvO hvp
    have h1 := (hpush_mem v hvp).2
    have h2 := hinv.nonpos v ((hOmem v).mp hvO)
    omega
  · intro v hv
    rw [hq, ← List.append_assoc] at hv
    rw [hind v]
    rcases List.mem_append.mp hv with hv | hv
    · have := hinv.nonpos v ((hOmem v).mp hv)
      split <;> omega
    · obtain ⟨hg, h1⟩ := hpush_mem v hv
      rw [if_pos hg]
      omega
  · intro v hv
    rw [hq, ← List.append_assoc] at hv
    rcases List.mem_append.mp hv with hv | hv
    · exact hinv.inrange v ((hOmem v).mp hv)
    · exact hg_range node v (hpush_mem v hv).1
  · intro v
    rw [hind v, hinv.acct v, List.filter_append]
    simp only [List.length_append]
    have : ([node].filter (fun u => v ∈ graph u)).length =
        if v ∈ graph node then 1 else 0 := by
      by_cases h : v ∈ graph node <;> simp [h]
    rw [this]
    split <;> push_cast <;> ring
  · intro v hvn hv
    rw [hq, ← List.append_assoc] at hv
    have hvO : v ∉ res ++ node :: rest := by
      intro hb
      exact hv (List.mem_append_left _ ((hOmem v).mpr hb))
    have h0 := hinv.nzout v hvn hvO
    rw [hind v]
    by_cases hg : v ∈ graph node
    · have h1 : indeg v ≠ 1 := by
        intro h1
        exact hv (List.mem_append_right _
          (List.mem_filter.mpr ⟨hg, by simpa using h1⟩))
      rw [if_pos hg]
      omega
    · rw [if_neg hg]
      omega

/-- Counting argument: a duplicate-free in-range list whose `p`-filter is as
long as that of `range n` contains every in-range element satisfying `p`. -/
theorem filter_count_complete (l : List Nat) (p : Nat → Bool)
    (hnd : l.Nodup) (hsub : ∀ x ∈ l, x < n)
    (hlen : ((List.range n).filter p).length ≤ (l.filter p).length) :
    ∀ x, x < n → p x = true → x ∈ l := by
  have hsp : List.Subperm (l.filter p) ((List.range n).filter p) := by
    refine List.subperm_of_subset (hnd.filter p) ?_
    intro x hx
    have h1 := List.mem_filter.mp hx
    exact List.mem_filter.mpr ⟨List.mem_range.mpr (hsub x h1.1), h1.2⟩
  have hperm := hsp.perm_of_length_le hlen
  intro x hxn hpx
  have : x ∈ l.filter p :=
    hperm.mem_iff.mpr (List.mem_filter.mpr ⟨List.mem_range.mpr hxn, hpx⟩)
  exact (List.mem_filter.mp this).1

theorem kahn_step_ord (hg_nodup : ∀ u, (graph u).Nodup)
    (hg_range : ∀ u v, v ∈ graph u → v < n)
    (hg_dom : ∀ u v, v ∈ graph u → u < n)
    (hcount : ∀ v, v < n →
      indeg0 v = (((List.range n).filter (fun u => v ∈ graph u)).length : Int))
    (node : Nat) (rest : List Nat) (indeg : Nat → Int) (res : List Nat)
    (hinv : KahnInv n graph indeg0 (node :: rest) indeg res)
    (hord : KahnOrd graph (node :: rest) res) :
    KahnOrd graph (processNeighbors (graph node) rest indeg).1 (res ++ [node]) := by
  have hstep := kahn_step_inv n graph indeg0 hg_nodup hg_range node rest indeg res hinv
  have hq := processNeighbors_queue (graph node) (hg_nodup node) rest indeg
  have hnode_not_res : node ∉ res := by
    intro hb
    have := hinv.nodup
    rw [List.nodup_append] at this
    exact this.2.2 hb (List.mem_cons_self _ _)
  constructor
  · intro v hv u hu
    rw [hq] at hv
    rcases List.mem_append.mp hv with hv | hv
    · exact List.mem_append_left _
        (hord.qready v (List.mem_cons_of_mem _ hv) u hu)
    · -- newly pushed: its ledger entry is exhausted, so by counting every
      -- in-neighbor has been emitted
      have hvfil := List.mem_filter.mp hv
      have hvn : v < n := hg_range node v hvfil.1
      have hzero : (processNeighbors (graph node) rest indeg).2 v = 0 := by
        rw [processNeighbors_indeg (graph node) (hg_nodup node) rest indeg v,
          if_pos hvfil.1]
        have : indeg v = 1 := by simpa using hvfil.2
        omega
      have hacct := hstep.acct v
      rw [hzero, hcount v hvn] at hacct
      have hlen : (((List.range n).filter (fun u => v ∈ graph u)).length : Int) ≤
          (((res ++ [node]).filter (fun u => v ∈ graph u)).length : Int) := by
        omega
      have hnodupA : (res ++ [node]).Nodup := by
        have := hstep.nodup
        rw [List.nodup_append] at this
        exact this.1
      have hsubA : ∀ x ∈ res ++ [node], x < n := by
        intro x hx
        exact hstep.inrange x (List.mem_append_left _ hx)
      exact filter_count_complete n (res ++ [node]) _ hnodupA hsubA
        (by exact_mod_cast hlen) u (hg_dom u v hu) (by simpa using hu)
  · intro v hv u hu
    rcases List.mem_append.mp hv with hv | hv
    · obtain ⟨humem, hidx⟩ := hord.ordered v hv u hu
      refine ⟨List.mem_append_left _ humem, ?_⟩
      rw [List.indexOf_append_of_mem humem, List.indexOf_append_of_mem hv]
      exact hidx
    · have hveq : v = node := List.mem_singleton.mp hv
      subst hveq
      have humem : u ∈ res := hord.qready v (List.mem_cons_self _ _) u hu
      refine ⟨List.mem_append_left _ humem, ?_⟩
      rw [List.indexOf_append_of_mem humem,
        List.indexOf_append_of_not_mem hnode_not_res]
      have : res.indexOf u < res.length := List.indexOf_lt_length.mpr humem
      omega

theorem kahnLoop_inv (hg_nodup : ∀ u, (graph u).Nodup)
    (hg_range : ∀ u v, v ∈ graph u → v < n) :
    ∀ (fuel : Nat) (queue : List Nat) (indeg : Nat → Int) (res : List Nat),
      KahnInv n graph indeg0 queue indeg res →
      KahnInv n graph indeg0
        (kahnLoop graph fuel queue indeg res).2.1
        (kahnLoop graph fuel queue indeg res).2.2
        (kahnLoop graph fuel queue indeg res).1
  | 0, queue, indeg, res, hinv => hinv
  | _ + 1, [], indeg, res, hinv => hinv
  | fuel + 1, node :: rest, indeg, res, hinv =>
      kahnLoop_inv hg_nodup hg_range fuel _ _ _
        (kahn_step_inv n graph indeg0 hg_nodup hg_range node rest indeg res hinv)

theorem kahnLoop_ord (hg_nodup : ∀ u, (graph u).Nodup)
    (hg_range : ∀ u v, v ∈ graph u → v < n)
    (hg_dom : ∀ u v, v ∈ graph u → u < n)
    (hcount : ∀ v, v < n →
      indeg0 v = (((List.range n).filter (fun u => v ∈ graph u)).length : Int)) :
    ∀ (fuel : Nat) (queue : List Nat) (indeg : Nat → Int) (res : List Nat),
      KahnInv n graph indeg0 queue indeg res →
      KahnOrd graph queue res →
      KahnOrd graph
        (kahnLoop graph fuel queue indeg res).2.1
        (kahnLoop graph fuel queue indeg res).1
  | 0, queue, indeg, res, _, hord => hord
  | _ + 1, [], indeg, res, _, hord => hord
  | fuel + 1, node :: rest, indeg, res, hinv, hord =>
      kahnLoop_ord hg_nodup hg_range hg_dom hcount fuel _ _ _
        (kahn_step_inv n graph indeg0 hg_nodup hg_range node rest indeg res hinv)
        (kahn_step_ord n graph indeg0 hg_nodup hg_range hg_dom hcount
          node rest indeg res hinv hord)

theorem kahnLoop_drain (hg_nodup : ∀ u, (graph u).Nodup)
    (hg_range : ∀ u v, v ∈ graph u → v < n) :
    ∀ (fuel : Nat) (queue : List Nat) (indeg : Nat → Int) (res : List Nat),
      KahnInv n graph indeg0 queue indeg res →
      n + 1 ≤ fuel + res.length →
      (kahnLoop graph fuel queue indeg res).2.1 = []
  | 0, queue, indeg, res, hinv, hfuel => by
      exfalso
      have hnd : res.Nodup := by
        have := hinv.nodup
        rw [List.nodup_append] at this
        exact this.1
      have hsub : res ⊆ List.range n := by
        intro x hx
        exact List.mem_range.mpr (hinv.inrange x (List.mem_append_left _ hx))
      have := (List.subperm_of_subset hnd hsub).length_le
      rw [List.length_range] at this
      omega
  | _ + 1, [], indeg, res, _, _ => rfl
  | fuel + 1, node :: rest, indeg, res, hinv, hfuel =>
      kahnLoop_drain hg_nodup hg_range fuel _ _ _
        (kahn_step_inv n graph indeg0 hg_nodup hg_range node rest indeg res hinv)
        (by simp only [List.length_append, List.length_singleton]; omega)

end KahnProofs

theorem kahn_initial (n : Nat) (deps : List TaskDependency) :
    KahnInv n (buildGraph deps) (buildIndeg deps)
      ((List.range n).filter (fun i => buildIndeg deps i = 0))
      (buildIndeg deps) [] := by
  refine ⟨?_, ?_, ?_, ?_, ?_⟩
  · simpa using (List.nodup_range n).filter _
  · intro v hv
    simp only [List.nil_append, List.mem_filter, decide_eq_true_eq] at hv
    omega
  · intro v hv
    simp only [List.nil_append, List.mem_filter, List.mem_range] at hv
    exact hv.1
  · intro v
    simp
  · intro v hvn hv
    simp only [List.nil_append, List.mem_filter, List.mem_range,
      decide_eq_true_eq, not_and] at hv
    exact hv hvn

theorem perm_completion (n : Nat) (l : List Nat) (hnd : l.Nodup)
    (hsub : ∀ x ∈ l, x < n) :
    (l ++ (List.range n).filter (fun i => i ∉ l)).Perm (List.range n) := by
  rw [List.perm_iff_count]
  intro a
  rw [List.count_append]
  by_cases hal : a ∈ l
  · rw [List.count_eq_one_of_mem hnd hal,
      List.count_eq_zero_of_not_mem (by simp [hal]),
      List.count_eq_one_of_mem (List.nodup_range n)
        (List.mem_range.mpr (hsub a hal))]
  · rw [List.count_eq_zero_of_not_mem hal]
    by_cases han : a < n
    · rw [List.count_eq_one_of_mem ((List.nodup_range n).filter _)
        (List.mem_filter.mpr ⟨List.mem_range.mpr han, by simp [hal]⟩),
        List.count_eq_one_of_mem (List.nodup_range n) (List.mem_range.mpr han)]
    · rw [List.count_eq_zero_of_not_mem
        (fun hm => han (List.mem_range.mp (List.mem_filter.mp hm).1)),
        List.count_eq_zero_of_not_mem (fun hm => han (List.mem_range.mp hm))]

/-- Claim C10: for every `num_tasks` and every dependency list with indices
in range — cyclic or not, duplicated or not — `get_dependency_order` returns
a permutation of `0..num_tasks-1`: every task index appears exactly once. -/
theorem C10_permutation (n : Nat) (deps : List TaskDependency)
    (hrange : ∀ d ∈ deps, d.dependent_task_index < n ∧
      d.prerequisite_task_index < n) :
    (get_dependency_order n deps).Perm (List.range n) := by
  have hg_nodup := buildGraph_nodup deps
  have hg_range := buildGraph_range deps n hrange
  have hfin := kahnLoop_inv n (buildGraph deps) (buildIndeg deps)
    hg_nodup hg_range (n + 1)
    ((List.range n).filter (fun i => buildIndeg deps i = 0))
    (buildIndeg deps) [] (kahn_initial n deps)
  set res2 := (kahnLoop (buildGraph deps) (n + 1)
    ((List.range n).filter (fun i => buildIndeg deps i = 0))
    (buildIndeg deps) []).1 with hres2
  have hnd : res2.Nodup := by
    have := hfin.nodup
    rw [List.nodup_append] at this
    exact this.1
  have hsub : ∀ x ∈ res2, x < n := by
    intro x hx
    exact hfin.inrange x (List.mem_append_left _ hx)
  have hcomp := perm_completion n res2 hnd hsub
  show (if res2.length ≠ n then
      res2 ++ (List.range n).filter (fun i => i ∉ res2)
    else res2).Perm (List.range n)
  by_cases hlen : res2.length ≠ n
  · rw [if_pos hlen]
    exact hcomp
  · rw [if_neg hlen]
    push_neg at hlen
    have hlen2 := hcomp.length_eq
    rw [List.length_append, List.length_range] at hlen2
    have hfil : ((List.range n).filter (fun i => i ∉ res2)).length = 0 := by
      omega
    rw [List.length_eq_zero] at hfil
    rw [hfil, List.append_nil] at hcomp
    exact hcomp

/-- Claim C10, witness: a cyclic two-task dependency set still yields a
permutation of `range 2`. -/
theorem C10_witness :
    (get_dependency_order 2
      [{ dependent_task_index := 0, prerequisite_task_index := 1,
         dependency_phrase := "a" },
       { dependent_task_index := 1, prerequisite_task_index := 0,
         dependency_phrase := "b" }]).Perm (List.range 2) := by
  refine C10_permutation 2 _ ?_
  intro d hd
  rcases List.mem_cons.mp hd with rfl | hd
  · exact ⟨by decide, by decide⟩
  · rcases List.mem_cons.mp hd with rfl | hd
    · exact ⟨by decide, by decide⟩
    · cases hd

theorem buildIndeg_count (n : Nat) (deps : List TaskDependency)
    (hrange : ∀ d ∈ deps, d.dependent_task_index < n ∧
      d.prerequisite_task_index < n)
    (hpairs : (deps.map (fun d =>
      (d.prerequisite_task_index, d.dependent_task_index))).Nodup) :
    ∀ v, v < n → buildIndeg deps v =
      (((List.range n).filter (fun u => v ∈ buildGraph deps u)).length : Int) := by
  intro v hvn
  rw [buildIndeg_eq]
  congr 1
  set P := deps.filter (fun d => d.dependent_task_index = v) with hP
  have hmapnd : (P.map (fun d => d.prerequisite_task_index)).Nodup := by
    have hpairsP : (P.map (fun d =>
        (d.prerequisite_task_index, d.dependent_task_index))).Nodup :=
      ((List.filter_sublist _).map _).nodup hpairs
    have hsnd : ∀ x ∈ P.map (fun d =>
        (d.prerequisite_task_index, d.dependent_task_index)), x.2 = v := by
      intro x hx
      obtain ⟨d, hd, rfl⟩ := List.mem_map.mp hx
      exact of_decide_eq_true (List.mem_filter.mp hd).2
    have : P.map (fun d => d.prerequisite_task_index) =
        (P.map (fun d =>
          (d.prerequisite_task_index, d.dependent_task_index))).map Prod.fst := by
      rw [List.map_map]
      rfl
    rw [this]
    refine List.Nodup.map_on ?_ hpairsP
    intro x hx y hy hf
    have hx2 := hsnd x hx
    have hy2 := hsnd y hy
    exact Prod.ext hf (hx2.trans hy2.symm)
  have hmem : ∀ u, u ∈ P.map (fun d => d.prerequisite_task_index) ↔
      u ∈ (List.range n).filter (fun u => v ∈ buildGraph deps u) := by
    intro u
    constructor
    · intro hu
      obtain ⟨d, hd, rfl⟩ := List.mem_map.mp hu
      have hdm := List.mem_filter.mp hd
      refine List.mem_filter.mpr ⟨List.mem_range.mpr (hrange d hdm.1).2, ?_⟩
      simp only [decide_eq_true_eq]
      exact (buildGraph_mem deps _ v).mpr
        ⟨d, hdm.1, rfl, of_decide_eq_true hdm.2⟩
    · intro hu
      have hum := List.mem_filter.mp hu
      obtain ⟨d, hd, h1, h2⟩ :=
        (buildGraph_mem deps u v).mp (of_decide_eq_true hum.2)
      refine List.mem_map.mpr ⟨d, List.mem_filter.mpr ⟨hd, by simp [h2]⟩, h1⟩
  have hperm := (List.perm_ext_iff_of_nodup hmapnd
    ((List.nodup_range n).filter _)).mpr hmem
  have := hperm.length_eq
  rw [List.length_map] at this
  exact this

theorem stuck_set_cycle (deps : List TaskDependency) (S : List Nat)
    (hne : S ≠ [])
    (hS : ∀ v ∈ S, ∃ u, u ∈ S ∧ v ∈ buildGraph deps u) :
    ∃ x, Relation.TransGen (DepEdge deps) x x := by
  have hSF : ∀ v : {x // x ∈ S.toFinset}, ∃ u : {x // x ∈ S.toFinset},
      v.val ∈ buildGraph deps u.val := by
    rintro ⟨v, hv⟩
    obtain ⟨u, huS, hedge⟩ := hS v (List.mem_toFinset.mp hv)
    exact ⟨⟨u, List.mem_toFinset.mpr huS⟩, hedge⟩
  choose F hF using hSF
  obtain ⟨v0, hv0⟩ := List.exists_mem_of_ne_nil S hne
  let g : Nat → {x // x ∈ S.toFinset} :=
    fun k => F^[k] ⟨v0, List.mem_toFinset.mpr hv0⟩
  have hchain : ∀ k, (g k).val ∈ buildGraph deps (g (k + 1)).val := by
    intro k
    have : g (k + 1) = F (g k) := Function.iterate_succ_apply' F k _
    rw [this]
    exact hF (g k)
  have htg : ∀ i m, Relation.TransGen
      (fun a b => b ∈ buildGraph deps a) (g (i + m + 1)).val (g i).val := by
    intro i m
    induction m with
    | zero => exact Relation.TransGen.single (hchain i)
    | succ k ih =>
        exact Relation.TransGen.head (hchain (i + k + 1)) ih
  obtain ⟨i, j, hij, hgeq⟩ := Finite.exists_ne_map_eq_of_infinite g
  have key : ∀ a b : Nat, a < b → g a = g b →
      ∃ x, Relation.TransGen (DepEdge deps) x x := by
    intro a b hab hg2
    have h1 : Relation.TransGen (fun x y => y ∈ buildGraph deps x)
        (g b).val (g a).val := by
      have hb : b = a + (b - a - 1) + 1 := by omega
      rw [hb]
      exact htg a (b - a - 1)
    rw [hg2] at h1
    have h2 : Relation.TransGen (Function.swap (DepEdge deps))
        (g b).val (g b).val := by
      refine Relation.TransGen.mono ?_ h1
      intro x y hxy
      obtain ⟨d, hd, hd1, hd2⟩ := (buildGraph_mem deps x y).mp hxy
      exact ⟨d, hd, hd2, hd1⟩
    exact ⟨(g b).val, (Relation.transGen_swap).mp h2⟩
  rcases Nat.lt_or_ge i j with hlt | hge
  · exact key i j hlt hgeq
  · exact key j i (by omega) hgeq.symm

/-- Claim C4, amended: for every `num_tasks` and every dependency list with
in-range indices, **no repeated (prerequisite, dependent) pair**, and an
acyclic dependent→prerequisite edge relation, `get_dependency_order` places
every prerequisite strictly before each of its dependents.  (With repeated
pairs the in-degree ledger overcounts and dependents of the duplicated edge
are emitted in the arbitrary-order fallback, which can break the ordering —
see the counterexample.) -/
theorem C4_amended (n : Nat) (deps : List TaskDependency)
    (hrange : ∀ d ∈ deps, d.dependent_task_index < n ∧
      d.prerequisite_task_index < n)
    (hpairs : (deps.map (fun d =>
      (d.prerequisite_task_index, d.dependent_task_index))).Nodup)
    (hacyclic : ∀ v, ¬ Relation.TransGen (DepEdge deps) v v) :
    ∀ d ∈ deps,
      (get_dependency_order n deps).indexOf d.prerequisite_task_index <
        (get_dependency_order n deps).indexOf d.dependent_task_index := by
  have hg_nodup := buildGraph_nodup deps
  have hg_range := buildGraph_range deps n hrange
  have hg_dom : ∀ u v, v ∈ buildGraph deps u → u < n := by
    intro u v hv
    obtain ⟨d, hd, h1, -⟩ := (buildGraph_mem deps u v).mp hv
    exact h1 ▸ (hrange d hd).2
  have hcount := buildIndeg_count n deps hrange hpairs
  have hinv0 := kahn_initial n deps
  have hord0 : KahnOrd (buildGraph deps)
      ((List.range n).filter (fun i => buildIndeg deps i = 0)) [] := by
    constructor
    · intro v hv u hu
      exfalso
      have hmem := List.mem_filter.mp hv
      have h0 : buildIndeg deps v = 0 := of_decide_eq_true hmem.2
      obtain ⟨d, hd, -, h2⟩ := (buildGraph_mem deps u v).mp hu
      rw [buildIndeg_eq] at h0
      have hdmem : d ∈ deps.filter (fun d => d.dependent_task_index = v) :=
        List.mem_filter.mpr ⟨hd, by simp [h2]⟩
      have hpos := List.length_pos_of_mem hdmem
      omega
    · intro v hv
      exact absurd hv (List.not_mem_nil v)
  have hfin_inv := kahnLoop_inv n (buildGraph deps) (buildIndeg deps)
    hg_nodup hg_range (n + 1)
    ((List.range n).filter (fun i => buildIndeg deps i = 0))
    (buildIndeg deps) [] hinv0
  have hfin_ord := kahnLoop_ord n (buildGraph deps) (buildIndeg deps)
    hg_nodup hg_range hg_dom hcount (n + 1)
    ((List.range n).filter (fun i => buildIndeg deps i = 0))
    (buildIndeg deps) [] hinv0 hord0
  have hdrain := kahnLoop_drain n (buildGraph deps) (buildIndeg deps)
    hg_nodup hg_range (n + 1)
    ((List.range n).filter (fun i => buildIndeg deps i = 0))
    (buildIndeg deps) [] hinv0 (by simp)
  set res2 := (kahnLoop (buildGraph deps) (n + 1)
    ((List.range n).filter (fun i => buildIndeg deps i = 0))
    (buildIndeg deps) []).1 with hres2
  set q2 := (kahnLoop (buildGraph deps) (n + 1)
    ((List.range n).filter (fun i => buildIndeg deps i = 0))
    (buildIndeg deps) []).2.1 with hq2
  have hnd : res2.Nodup := (List.nodup_append.mp hfin_inv.nodup).1
  have hsub : ∀ x ∈ res2, x < n := fun x hx =>
    hfin_inv.inrange x (List.mem_append_left _ hx)
  have hcomplete : ∀ v, v < n → v ∈ res2 := by
    by_contra hmiss
    push_neg at hmiss
    obtain ⟨v0, hv0n, hv0⟩ := hmiss
    have hv0S : v0 ∈ (List.range n).filter (fun i => i ∉ res2) :=
      List.mem_filter.mpr ⟨List.mem_range.mpr hv0n, by simp [hv0]⟩
    have hSprop : ∀ v ∈ (List.range n).filter (fun i => i ∉ res2),
        ∃ u, u ∈ (List.range n).filter (fun i => i ∉ res2) ∧
          v ∈ buildGraph deps u := by
      intro v hvS
      have hmem := List.mem_filter.mp hvS
      have hvn : v < n := List.mem_range.mp hmem.1
      have hvnotres : v ∉ res2 := by simpa using hmem.2
      have hvnot : v ∉ res2 ++ q2 := by
        rw [hdrain, List.append_nil]
        exact hvnotres
      have hnz := hfin_inv.nzout v hvn hvnot
      rw [hfin_inv.acct v, hcount v hvn] at hnz
      have hle : (res2.filter (fun u => v ∈ buildGraph deps u)).length ≤
          ((List.range n).filter (fun u => v ∈ buildGraph deps u)).length :=
        (List.subperm_of_subset (hnd.filter _) (fun u hu =>
          List.mem_filter.mpr ⟨List.mem_range.mpr
            (hsub u (List.mem_filter.mp hu).1), (List.mem_filter.mp hu).2⟩)).length_le
      have hlt : (res2.filter (fun u => v ∈ buildGraph deps u)).length <
          ((List.range n).filter (fun u => v ∈ buildGraph deps u)).length := by
        omega
      by_contra hnou
      push_neg at hnou
      have hallin : ∀ u, u < n → v ∈ buildGraph deps u → u ∈ res2 := by
        intro u hun hedge
        by_contra hnotin
        exact hnou u (List.mem_filter.mpr
          ⟨List.mem_range.mpr hun, by simp [hnotin]⟩) hedge
      have hsp2 : List.Subperm
          ((List.range n).filter (fun u => v ∈ buildGraph deps u))
          (res2.filter (fun u => v ∈ buildGraph deps u)) := by
        refine List.subperm_of_subset ((List.nodup_range n).filter _) ?_
        intro u hu
        have hum := List.mem_filter.mp hu
        exact List.mem_filter.mpr
          ⟨hallin u (List.mem_range.mp hum.1) (of_decide_eq_true hum.2), hum.2⟩
      have := hsp2.length_le
      omega
    obtain ⟨x, hx⟩ := stuck_set_cycle deps _
      (List.ne_nil_of_mem hv0S) hSprop
    exact hacyclic x hx
  have hlen : res2.length = n := by
    have hsp1 := (List.subperm_of_subset hnd (fun x hx =>
      List.mem_range.mpr (hsub x hx))).length_le
    have hsp2 := (List.subperm_of_subset (List.nodup_range n) (fun x hx =>
      hcomplete x (List.mem_range.mp hx))).length_le
    rw [List.length_range] at hsp1 hsp2
    omega
  have hresult : get_dependency_order n deps = res2 := by
    show (if res2.length ≠ n then
        res2 ++ (List.range n).filter (fun i => i ∉ res2)
      else res2) = res2
    rw [if_neg (by omega)]
  intro d hd
  rw [hresult]
  have hv : d.dependent_task_index ∈ res2 := hcomplete _ (hrange d hd).1
  have hedge : d.dependent_task_index ∈
      buildGraph deps d.prerequisite_task_index :=
    (buildGraph_mem deps _ _).mpr ⟨d, hd, rfl, rfl⟩
  exact (hfin_ord.ordered _ hv _ hedge).2

/-- The dependency list of the C4 counterexample: a duplicated
(prerequisite 2, dependent 1) record plus (prerequisite 1, dependent 0). -/
def c4deps : List TaskDependency :=
  [{ dependent_task_index := 1, prerequisite_task_index := 2,
     dependency_phrase := "a" },
   { dependent_task_index := 1, prerequisite_task_index := 2,
     dependency_phrase := "b" },
   { dependent_task_index := 0, prerequisite_task_index := 1,
     dependency_phrase := "c" }]

/-- Claim C4, counterexample: `c4deps` has all indices in `[0, 3)` and an
acyclic dependent→prerequisite relation, yet `get_dependency_order`
returns `[2, 0, 1]`, placing the prerequisite of the (1 → 0) edge **after**
its dependent — the duplicated record keeps task 1's in-degree ledger
positive, so tasks 0 and 1 fall into the arbitrary-order fallback. -/
theorem C4_counterexample :
    (∀ d ∈ c4deps, d.dependent_task_index < 3 ∧
      d.prerequisite_task_index < 3) ∧
    (∀ v, ¬ Relation.TransGen (DepEdge c4deps) v v) ∧
    get_dependency_order 3 c4deps = [2, 0, 1] ∧
    ({ dependent_task_index := 0, prerequisite_task_index := 1,
       dependency_phrase := "c" } : TaskDependency) ∈ c4deps ∧
    ¬ ((get_dependency_order 3 c4deps).indexOf 1 <
        (get_dependency_order 3 c4deps).indexOf 0) := by
  have hmono : ∀ a b, DepEdge c4deps a b → a < b := by
    rintro a b ⟨d, hd, h1, h2⟩
    subst h1
    subst h2
    simp only [c4deps, List.mem_cons, List.not_mem_nil, or_false] at hd
    rcases hd with rfl | rfl | rfl <;> decide
  refine ⟨by decide, ?_, by decide, by decide, by decide⟩
  intro v htg
  have hrank : ∀ a b, Relation.TransGen (DepEdge c4deps) a b → a < b := by
    intro a b h
    induction h with
    | single h => exact hmono _ _ h
    | tail _ h ih => exact lt_trans ih (hmono _ _ h)
  exact absurd (hrank v v htg) (lt_irrefl v)

/-- The single acyclic dependency used by the C4 witness. -/
def c4wdeps : List TaskDependency :=
  [{ dependent_task_index := 1, prerequisite_task_index := 0,
     dependency_phrase := "x" }]

/-- Claim C4, witness: instantiates `C4_amended` on a single acyclic
dependency over two tasks. -/
theorem C4_witness :
    (get_dependency_order 2 c4wdeps).indexOf 0 <
      (get_dependency_order 2 c4wdeps).indexOf 1 := by
  have hmono : ∀ a b, DepEdge c4wdeps a b → b < a := by
    rintro a b ⟨d, hd, h1, h2⟩
    subst h1
    subst h2
    simp only [c4wdeps, List.mem_cons, List.not_mem_nil, or_false] at hd
    subst hd
    decide
  have hacyclic : ∀ v, ¬ Relation.TransGen (DepEdge c4wdeps) v v := by
    intro v htg
    have hrank : ∀ a b, Relation.TransGen (DepEdge c4wdeps) a b → b < a := by
      intro a b h
      induction h with
      | single h => exact hmono _ _ h
      | tail _ h ih => exact lt_trans (hmono _ _ h) ih
    exact absurd (hrank v v htg) (lt_irrefl v)
  exact C4_amended 2 c4wdeps (by decide) (by decide) hacyclic
    { dependent_task_index := 1, prerequisite_task_index := 0,
      dependency_phrase := "x" } (List.mem_cons_self _ _)

/-- Adjacency map of `DependencyResolver.detect_circular_dependencies`:
`graph[dep.dependent].add(dep.prerequisite)` — the dependent→prerequisite
digraph (note the opposite orientation to `get_dependency_order`). -/
def buildGraphC (deps : List TaskDependency) : Nat → List Nat :=
  deps.foldl
    (fun g d => fun u =>
      if u = d.dependent_task_index then
        (if d.prerequisite_task_index ∈ g u then g u
         else g u ++ [d.prerequisite_task_index])
      else g u)
    (fun _ => [])

/-- Record with dependent and prerequisite exchanged (proof device relating
the two adjacency builders). -/
def swapDep (d : TaskDependency) : TaskDependency :=
  { dependent_task_index := d.prerequisite_task_index,
    prerequisite_task_index := d.dependent_task_index,
    dependency_phrase := d.dependency_phrase }

theorem buildGraphC_eq (deps : List TaskDependency) :
    buildGraphC deps = buildGraph (deps.map swapDep) := by
  unfold buildGraphC buildGraph
  rw [List.foldl_map]
  rfl

theorem buildGraphC_mem (deps : List TaskDependency) (u v : Nat) :
    v ∈ buildGraphC deps u ↔
      ∃ d ∈ deps, d.dependent_task_index = u ∧
        d.prerequisite_task_index = v := by
  rw [buildGraphC_eq, buildGraph_mem]
  constructor
  · rintro ⟨d2, hd2, h1, h2⟩
    obtain ⟨d, hd, rfl⟩ := List.mem_map.mp hd2
    exact ⟨d, hd, h1, h2⟩
  · rintro ⟨d, hd, h1, h2⟩
    exact ⟨swapDep d, List.mem_map.mpr ⟨d, hd, rfl⟩, h1, h2⟩

theorem buildGraphC_nodup (deps : List TaskDependency) (u : Nat) :
    (buildGraphC deps u).Nodup := by
  rw [buildGraphC_eq]
  exact buildGraph_nodup _ u

/-- An edge of the dependent→prerequisite digraph is exactly a `DepEdge`. -/
theorem buildGraphC_edge (deps : List TaskDependency) (a b : Nat) :
    b ∈ buildGraphC deps a ↔ DepEdge deps a b :=
  buildGraphC_mem deps a b

theorem mem_dedupFirstAux {α : Type} [DecidableEq α] :
    ∀ (l seen : List α) (x : α),
      x ∈ dedupFirstAux l seen ↔ x ∈ l ∧ x ∉ seen
  | [], seen, x => by simp [dedupFirstAux]
  | k :: rest, seen, x => by
      unfold dedupFirstAux
      by_cases hk : k ∈ seen
      · rw [if_pos hk, mem_dedupFirstAux rest seen x]
        constructor
        · rintro ⟨h1, h2⟩
          exact ⟨List.mem_cons_of_mem _ h1, h2⟩
        · rintro ⟨h1, h2⟩
          rcases List.mem_cons.mp h1 with rfl | h1
          · exact absurd hk h2
          · exact ⟨h1, h2⟩
      · rw [if_neg hk]
        rw [List.mem_cons, mem_dedupFirstAux rest (k :: seen) x]
        constructor
        · rintro (rfl | ⟨h1, h2⟩)
          · exact ⟨List.mem_cons_self _ _, hk⟩
          · exact ⟨List.mem_cons_of_mem _ h1,
              fun hs => h2 (List.mem_cons_of_mem _ hs)⟩
        · rintro ⟨h1, h2⟩
          rcases List.mem_cons.mp h1 with rfl | h1
          · exact Or.inl rfl
          · by_cases hxk : x = k
            · exact Or.inl hxk
            · exact Or.inr ⟨h1, fun hs => by
                rcases List.mem_cons.mp hs with h | h
                · exact hxk h
                · exact h2 h⟩

theorem mem_dedupFirst {α : Type} [DecidableEq α] (l : List α) (x : α) :
    x ∈ dedupFirst l ↔ x ∈ l := by
  unfold dedupFirst
  rw [mem_dedupFirstAux]
  simp

/-- All node indices appearing in the dependency list (used only to bound
the recursion depth of the embedded DFS). -/
def allNodesC (deps : List TaskDependency) : List Nat :=
  dedupFirst (deps.map (fun d => d.dependent_task_index) ++
    deps.map (fun d => d.prerequisite_task_index))

/-- The dict keys of the cycle-detection graph in first-insertion order. -/
def graphKeysC (deps : List TaskDependency) : List Nat :=
  dedupFirst (deps.map (fun d => d.dependent_task_index))

/-- Mutable state of the recursive `dfs`: Python sets are modelled as
insertion-ordered duplicate-free lists (only membership matters). -/
structure DfsState where
  visited : List Nat
  recStack : List Nat
  cycles : List (Nat × Nat)

/-- Python `set.add`. -/
def setAdd (l : List Nat) (x : Nat) : List Nat :=
  if x ∈ l then l else l ++ [x]

theorem mem_setAdd (l : List Nat) (x y : Nat) :
    y ∈ setAdd l x ↔ y ∈ l ∨ y = x := by
  unfold setAdd
  by_cases h : x ∈ l
  · rw [if_pos h]
    constructor
    · exact Or.inl
    · rintro (hy | rfl)
      · exact hy
      · exact h
  · rw [if_neg h]
    simp

/-- The `for neighbor in graph[node]` body of `dfs`: recurse on unvisited
neighbors (propagating `True` immediately, without cleaning the recursion
stack), report `(node, neighbor)` and return `True` on a back edge, else
continue. -/
def dfsNbs (child : Nat → DfsState → Bool × DfsState) (node : Nat) :
    List Nat → DfsState → Bool × DfsState
  | [], st => (false, st)
  | nb :: rest, st =>
      if nb ∉ st.visited then
        match child nb st with
        | (true, st2) => (true, st2)
        | (false, st2) => dfsNbs child node rest st2
      else if nb ∈ st.recStack then
        (true, { st with cycles := st.cycles ++ [(node, nb)] })
      else dfsNbs child node rest st

/-- The recursive `dfs` of `detect_circular_dependencies`, with fuel for the
recursion depth (`allNodesC.length + 1` provably suffices: every recursive
call targets a previously unvisited node). -/
def dfsC (g : Nat → List Nat) : Nat → Nat → DfsState → Bool × DfsState
  | 0, _, st => (false, st)
  | fuel + 1, node, st =>
      let st1 : DfsState := { st with visited := setAdd st.visited node,
                                      recStack := setAdd st.recStack node }
      match dfsNbs (dfsC g fuel) node (g node) st1 with
      | (true, st2) => (true, st2)
      | (false, st2) =>
          (false, { st2 with recStack := st2.recStack.erase node })

/-- `DependencyResolver.detect_circular_dependencies`. -/
def detect_circular_dependencies (deps : List TaskDependency) :
    List (Nat × Nat) :=
  let g := buildGraphC deps
  let fuel := (allNodesC deps).length + 1
  ((graphKeysC deps).foldl
    (fun st node =>
      if node ∉ st.visited then (dfsC g fuel node st).2 else st)
    ⟨[], [], []⟩).cycles

theorem setAdd_erase (l : List Nat) (x : Nat) (h : x ∉ l) :
    (setAdd l x).erase x = l := by
  unfold setAdd
  rw [if_neg h, List.erase_append_right _ h, List.erase_cons_head,
    List.append_nil]

theorem dfsA (g : Nat → List Nat)
    (hacyc : ∀ v, ¬ Relation.TransGen (fun a b => b ∈ g a) v v) :
    ∀ (fuel : Nat) (node : Nat) (st : DfsState),
      (∀ x ∈ st.recStack, Relation.TransGen (fun a b => b ∈ g a) x node) →
      (dfsC g fuel node st).1 = false ∧
      (dfsC g fuel node st).2.recStack = st.recStack ∧
      (dfsC g fuel node st).2.cycles = st.cycles
  | 0, node, st, _ => ⟨rfl, rfl, rfl⟩
  | fuel + 1, node, st, hpre => by
      have hnodeR : node ∉ st.recStack := fun h => hacyc node (hpre node h)
      have aux : ∀ (nbs : List Nat) (st1 : DfsState),
          (∀ x ∈ nbs, x ∈ g node) →
          st1.recStack = setAdd st.recStack node →
          (dfsNbs (dfsC g fuel) node nbs st1).1 = false ∧
          (dfsNbs (dfsC g fuel) node nbs st1).2.recStack = st1.recStack ∧
          (dfsNbs (dfsC g fuel) node nbs st1).2.cycles = st1.cycles := by
        intro nbs
        induction nbs with
        | nil => exact fun st1 _ _ => ⟨rfl, rfl, rfl⟩
        | cons nb rest ih =>
            intro st1 hnbs hrs
            have hedge : nb ∈ g node := hnbs nb (List.mem_cons_self _ _)
            have hpre1 : ∀ x ∈ st1.recStack,
                x = node ∨ Relation.TransGen (fun a b => b ∈ g a) x node := by
              intro x hx
              rw [hrs, mem_setAdd] at hx
              rcases hx with hx | rfl
              · exact Or.inr (hpre x hx)
              · exact Or.inl rfl
            by_cases hv : nb ∈ st1.visited
            · rw [dfsNbs, if_neg (not_not_intro hv)]
              by_cases hr : nb ∈ st1.recStack
              · exfalso
                rcases hpre1 nb hr with rfl | htg
                · exact hacyc nb (Relation.TransGen.single hedge)
                · exact hacyc node (Relation.TransGen.head hedge htg)
              · rw [if_neg hr]
                exact ih st1 (fun x hx => hnbs x (List.mem_cons_of_mem _ hx)) hrs
            · rw [dfsNbs, if_pos (by simpa using hv)]
              have hchild := dfsA g hacyc fuel nb st1 (by
                intro x hx
                rcases hpre1 x hx with rfl | htg
                · exact Relation.TransGen.single hedge
                · exact Relation.TransGen.tail htg hedge)
              rcases hcr : dfsC g fuel nb st1 with ⟨b, st2⟩
              rw [hcr] at hchild
              obtain ⟨hb, hrs2, hcy2⟩ := hchild
              simp only at hb hrs2 hcy2
              subst hb
              dsimp only
              have hrest := ih st2
                (fun x hx => hnbs x (List.mem_cons_of_mem _ hx))
                (hrs2.trans hrs)
              refine ⟨hrest.1, ?_, ?_⟩
              · rw [hrest.2.1, hrs2, hrs]
              · rw [hrest.2.2, hcy2]
      have hunfold : dfsC g (fuel + 1) node st =
          (match dfsNbs (dfsC g fuel) node (g node)
              { st with visited := setAdd st.visited node,
                        recStack := setAdd st.recStack node } with
            | (true, st2) => (true, st2)
            | (false, st2) =>
                (false, { st2 with recStack := st2.recStack.erase node })) := rfl
      rcases hns : dfsNbs (dfsC g fuel) node (g node)
          { st with visited := setAdd st.visited node,
                    recStack := setAdd st.recStack node } with ⟨b, st2⟩
      have haux := aux (g node)
        { st with visited := setAdd st.visited node,
                  recStack := setAdd st.recStack node }
        (fun x hx => hx) rfl
      rw [hns] at haux
      obtain ⟨hb, hrs2, hcy2⟩ := haux
      simp only at hb hrs2 hcy2
      subst hb
      rw [hunfold, hns]
      dsimp only
      refine ⟨rfl, ?_, hcy2⟩
      rw [hrs2]
      exact setAdd_erase st.recStack node hnodeR

/-- Acyclic direction of claim C5: if the dependent→prerequisite relation
has no cycle, `detect_circular_dependencies` returns the empty list. -/
theorem detect_acyclic_nil (deps : List TaskDependency)
    (hacyclic : ∀ v, ¬ Relation.TransGen (DepEdge deps) v v) :
    detect_circular_dependencies deps = [] := by
  have hacycE : ∀ v, ¬ Relation.TransGen
      (fun a b => b ∈ buildGraphC deps a) v v := by
    intro v htg
    exact hacyclic v (Relation.TransGen.mono
      (fun a b hab => (buildGraphC_edge deps a b).mp hab) htg)
  unfold detect_circular_dependencies
  dsimp only
  suffices hfold : ∀ (keys : List Nat) (st : DfsState), st.recStack = [] →
      ((keys.foldl (fun st node =>
        if node ∉ st.visited then
          (dfsC (buildGraphC deps) ((allNodesC deps).length + 1) node st).2
        else st) st).cycles = st.cycles ∧
      (keys.foldl (fun st node =>
        if node ∉ st.visited then
          (dfsC (buildGraphC deps) ((allNodesC deps).length + 1) node st).2
        else st) st).recStack = []) by
    exact (hfold (graphKeysC deps) ⟨[], [], []⟩ rfl).1
  intro keys
  induction keys with
  | nil => exact fun st h => ⟨rfl, h⟩
  | cons k rest ih =>
      intro st hrs
      rw [List.foldl_cons]
      by_cases hv : k ∈ st.visited
      · rw [if_neg (not_not_intro hv)]
        exact ih st hrs
      · rw [if_pos (by simpa using hv)]
        obtain ⟨-, h2, h3⟩ := dfsA (buildGraphC deps) hacycE
          ((allNodesC deps).length + 1) k st
          (by rw [hrs]; intro x hx; cases hx)
        obtain ⟨ih1, ih2⟩ := ih _ (h2.trans hrs)
        exact ⟨ih1.trans h3, ih2⟩

theorem filter_length_mono (l : List Nat) (p q : Nat → Bool)
    (h : ∀ x ∈ l, q x = true → p x = true) :
    (l.filter q).length ≤ (l.filter p).length := by
  induction l with
  | nil => simp
  | cons a t ih =>
      have ht := ih (fun x hx => h x (List.mem_cons_of_mem _ hx))
      by_cases hq : q a = true
      · rw [List.filter_cons_of_pos hq,
          List.filter_cons_of_pos (h a (List.mem_cons_self _ _) hq)]
        simpa using ht
      · rw [List.filter_cons_of_neg (by simpa using hq)]
        refine le_trans ht ?_
        by_cases hp : p a = true
        · rw [List.filter_cons_of_pos hp]
          simp only [List.length_cons]
          omega
        · rw [List.filter_cons_of_neg (by simpa using hp)]

theorem filter_length_lt (l : List Nat) (p q : Nat → Bool)
    (h : ∀ x ∈ l, q x = true → p x = true)
    (y : Nat) (hy : y ∈ l) (hpy : p y = true) (hqy : q y = false) :
    (l.filter q).length < (l.filter p).length := by
  induction l with
  | nil => cases hy
  | cons a t ih =>
      rcases List.mem_cons.mp hy with rfl | hyt
      · rw [List.filter_cons_of_pos hpy,
          List.filter_cons_of_neg (by simp [hqy])]
        have := filter_length_mono t p q
          (fun x hx => h x (List.mem_cons_of_mem _ hx))
        simp only [List.length_cons]
        omega
      · have ht := ih (fun x hx => h x (List.mem_cons_of_mem _ hx)) hyt
        by_cases hq : q a = true
        · rw [List.filter_cons_of_pos hq,
            List.filter_cons_of_pos (h a (List.mem_cons_self _ _) hq)]
          simp only [List.length_cons]
          omega
        · rw [List.filter_cons_of_neg (by simpa using hq)]
          by_cases hp : p a = true
          · rw [List.filter_cons_of_pos hp]
            simp only [List.length_cons]
            omega
          · rw [List.filter_cons_of_neg (by simpa using hp)]
            exact ht

theorem takeIdx : ∀ (F : List Nat) (i : Nat) (y : Nat),
    y ∈ F.take i → F.indexOf y < i
  | [], i, y, h => by simp at h
  | a :: t, 0, y, h => by simp at h
  | a :: t, i + 1, y, h => by
      rw [List.take_succ_cons] at h
      by_cases hya : y = a
      · subst hya
        rw [List.indexOf_cons_self]
        omega
      · rcases List.mem_cons.mp h with rfl | ht
        · exact absurd rfl hya
        · rw [List.indexOf_cons_ne _ (fun he => hya he.symm)]
          have := takeIdx t i y ht
          omega

/-- State invariant of the completeness direction: visited = stack ∪
finished, and the finished list is topologically sorted (all out-edges of a
finished node point to earlier-finished nodes). -/
structure SInvC (g : Nat → List Nat) (st : DfsState) (F : List Nat) :
    Prop where
  viseq : ∀ x, x ∈ st.visited ↔ x ∈ st.recStack ∨ x ∈ F
  fnodup : F.Nodup
  disj : ∀ x ∈ st.recStack, x ∉ F
  topo : ∀ (i : Nat) (hi : i < F.length), ∀ y, y ∈ g (F.get ⟨i, hi⟩) →
    y ∈ F.take i

theorem topo_snoc (g : Nat → List Nat) (F : List Nat) (node : Nat)
    (ht : ∀ (i : Nat) (hi : i < F.length), ∀ y, y ∈ g (F.get ⟨i, hi⟩) →
      y ∈ F.take i)
    (hn : ∀ y ∈ g node, y ∈ F) :
    ∀ (i : Nat) (hi : i < (F ++ [node]).length), ∀ y,
      y ∈ g ((F ++ [node]).get ⟨i, hi⟩) → y ∈ (F ++ [node]).take i := by
  intro i hi y hy
  have hlen : i < F.length + 1 := by
    simpa using hi
  by_cases hlt : i < F.length
  · have hget : (F ++ [node]).get ⟨i, hi⟩ = F.get ⟨i, hlt⟩ := by
      rw [List.get_append i hlt]
    rw [hget] at hy
    rw [List.take_append_of_le_length (le_of_lt hlt)]
    exact ht i hlt y hy
  · have hieq : i = F.length := by omega
    subst hieq
    have hget : (F ++ [node]).get ⟨F.length, hi⟩ = node := by
      rw [List.get_append_right]
      · simp
      · simp
      · simp
    rw [hget] at hy
    rw [List.take_left]
    exact hn y hy

theorem dfsCB (g : Nat → List Nat) (allNs : List Nat)
    (hGsub : ∀ u v, v ∈ g u → v ∈ allNs) :
    ∀ (fuel : Nat) (node : Nat) (st : DfsState) (F : List Nat),
      node ∉ st.visited →
      node ∈ allNs →
      (∀ x ∈ st.visited, x ∈ allNs) →
      (allNs.filter (fun x => decide (x ∉ st.visited))).length < fuel →
      SInvC g st F →
      (∃ Δ, (dfsC g fuel node st).2.cycles = st.cycles ++ Δ ∧
        ((dfsC g fuel node st).1 = true → Δ ≠ [])) ∧
      ((dfsC g fuel node st).1 = false →
        ∃ F2, SInvC g (dfsC g fuel node st).2 (F ++ F2) ∧
          (dfsC g fuel node st).2.recStack = st.recStack ∧
          node ∈ F ++ F2 ∧
          (∀ x ∈ st.visited, x ∈ (dfsC g fuel node st).2.visited) ∧
          (∀ x ∈ (dfsC g fuel node st).2.visited, x ∈ allNs))
  | 0, node, st, F, hnv, hna, hva, hb, hS => absurd hb (by omega)
  | fuel + 1, node, st, F, hnv, hna, hva, hb, hS => by
      have hnodeRec : node ∉ st.recStack :=
        fun h => hnv ((hS.viseq node).mpr (Or.inl h))
      have hnodeF : node ∉ F :=
        fun h => hnv ((hS.viseq node).mpr (Or.inr h))
      have hS1 : SInvC g
          { visited := setAdd st.visited node,
            recStack := setAdd st.recStack node, cycles := st.cycles } F := by
        refine ⟨?_, hS.fnodup, ?_, hS.topo⟩
        · intro x
          show x ∈ setAdd st.visited node ↔
            x ∈ setAdd st.recStack node ∨ x ∈ F
          rw [mem_setAdd, mem_setAdd, hS.viseq x]
          tauto
        · intro x hx
          rw [mem_setAdd] at hx
          rcases hx with hx | rfl
          · exact hS.disj x hx
          · exact hnodeF
      have hva1 : ∀ x ∈ setAdd st.visited node, x ∈ allNs := by
        intro x hx
        rw [mem_setAdd] at hx
        rcases hx with hx | rfl
        · exact hva x hx
        · exact hna
      have hb1 : (allNs.filter (fun x =>
          decide (x ∉ setAdd st.visited node))).length < fuel := by
        have hmono : ∀ x ∈ allNs,
            decide (x ∉ setAdd st.visited node) = true →
            decide (x ∉ st.visited) = true := by
          intro x _ hx
          rw [decide_eq_true_eq] at hx ⊢
          exact fun hmem => hx ((mem_setAdd _ _ _).mpr (Or.inl hmem))
        have hlt := filter_length_lt allNs
          (fun x => decide (x ∉ st.visited))
          (fun x => decide (x ∉ setAdd st.visited node))
          hmono node hna (decide_eq_true hnv)
          (decide_eq_false (not_not_intro ((mem_setAdd _ _ _).mpr (Or.inr rfl))))
        omega
      have aux : ∀ (nbs : List Nat) (stc : DfsState) (Fc : List Nat),
          (∀ x ∈ nbs, x ∈ g node) →
          stc.recStack = setAdd st.recStack node →
          (∀ x ∈ stc.visited, x ∈ allNs) →
          (allNs.filter (fun x => decide (x ∉ stc.visited))).length < fuel →
          SInvC g stc Fc →
          (∃ Δ, (dfsNbs (dfsC g fuel) node nbs stc).2.cycles =
              stc.cycles ++ Δ ∧
            ((dfsNbs (dfsC g fuel) node nbs stc).1 = true → Δ ≠ [])) ∧
          ((dfsNbs (dfsC g fuel) node nbs stc).1 = false →
            ∃ F2, SInvC g (dfsNbs (dfsC g fuel) node nbs stc).2 (Fc ++ F2) ∧
              (dfsNbs (dfsC g fuel) node nbs stc).2.recStack = stc.recStack ∧
              (∀ x ∈ stc.visited,
                x ∈ (dfsNbs (dfsC g fuel) node nbs stc).2.visited) ∧
              (∀ x ∈ (dfsNbs (dfsC g fuel) node nbs stc).2.visited,
                x ∈ allNs) ∧
              (allNs.filter (fun x =>
                decide (x ∉ (dfsNbs (dfsC g fuel) node nbs stc).2.visited))).length
                < fuel ∧
              (∀ nb ∈ nbs, nb ∈ Fc ++ F2)) := by
        intro nbs
        induction nbs with
        | nil =>
            intro stc Fc _ _ hvac hbc hSc
            constructor
            · exact ⟨[], by simp [dfsNbs], by intro h; exact absurd h (by simp [dfsNbs])⟩
            · intro _
              refine ⟨[], ?_, rfl, fun x hx => hx, hvac, hbc, by simp⟩
              rw [List.append_nil]
              exact hSc
        | cons nb rest ih =>
            intro stc Fc hnbs hrs hvac hbc hSc
            have hedge : nb ∈ g node := hnbs nb (List.mem_cons_self _ _)
            by_cases hv : nb ∈ stc.visited
            · rw [dfsNbs, if_neg (not_not_intro hv)]
              by_cases hr : nb ∈ stc.recStack
              · rw [if_pos hr]
                constructor
                · exact ⟨[(node, nb)], rfl, fun _ => by simp⟩
                · intro hfalse
                  simp at hfalse
              · rw [if_neg hr]
                have hnbF : nb ∈ Fc := by
                  rcases (hSc.viseq nb).mp hv with h | h
                  · exact absurd h hr
                  · exact h
                obtain ⟨hi1, hi2⟩ := ih stc Fc
                  (fun x hx => hnbs x (List.mem_cons_of_mem _ hx)) hrs hvac hbc hSc
                refine ⟨hi1, ?_⟩
                intro hf
                obtain ⟨F2, hS2, hrs2, hvm2, hva2, hb2, hrest2⟩ := hi2 hf
                refine ⟨F2, hS2, hrs2, hvm2, hva2, hb2, ?_⟩
                intro x hx
                rcases List.mem_cons.mp hx with rfl | hx
                · exact List.mem_append_left _ hnbF
                · exact hrest2 x hx
            · rw [dfsNbs, if_pos (by simpa using hv)]
              have hchild := dfsCB g allNs hGsub fuel nb stc Fc hv
                (hGsub node nb hedge) hvac hbc hSc
              rcases hcr : dfsC g fuel nb stc with ⟨bc, st2⟩
              rw [hcr] at hchild
              obtain ⟨⟨Δc, hcyc, htruec⟩, hfalsec⟩ := hchild
              dsimp only at hcyc htruec hfalsec
              cases bc with
              | true =>
                  dsimp only
                  constructor
                  · exact ⟨Δc, hcyc, fun _ => htruec rfl⟩
                  · intro hf
                    simp at hf
              | false =>
                  dsimp only
                  obtain ⟨F2c, hS2, hrs2, hnbF2, hvm2, hva2⟩ := hfalsec rfl
                  have hb2 : (allNs.filter (fun x =>
                      decide (x ∉ st2.visited))).length < fuel := by
                    have hmono2 : ∀ x ∈ allNs,
                        decide (x ∉ st2.visited) = true →
                        decide (x ∉ stc.visited) = true := by
                      intro x _ hx
                      rw [decide_eq_true_eq] at hx ⊢
                      exact fun hmem => hx (hvm2 x hmem)
                    exact lt_of_le_of_lt
                      (filter_length_mono allNs _ _ hmono2) hbc
                  obtain ⟨hj1, hj2⟩ := ih st2 (Fc ++ F2c)
                    (fun x hx => hnbs x (List.mem_cons_of_mem _ hx))
                    (hrs2.trans hrs) hva2 hb2 hS2
                  constructor
                  · obtain ⟨Δr, hcyr, htruer⟩ := hj1
                    refine ⟨Δc ++ Δr, ?_, ?_⟩
                    · rw [hcyr, hcyc, List.append_assoc]
                    · intro htr habs
                      rcases List.append_eq_nil.mp habs with ⟨-, h2⟩
                      exact htruer htr h2
                  · intro hf
                    obtain ⟨F2r, hS3, hrs3, hvm3, hva3, hb3, hrest3⟩ := hj2 hf
                    refine ⟨F2c ++ F2r, ?_, hrs3.trans hrs2, ?_, hva3, hb3, ?_⟩
                    · rw [← List.append_assoc]
                      exact hS3
                    · intro x hx
                      exact hvm3 x (hvm2 x hx)
                    · intro x hx
                      rw [← List.append_assoc]
                      rcases List.mem_cons.mp hx with rfl | hx
                      · exact List.mem_append_left _ hnbF2
                      · exact hrest3 x hx
      have hunfold : dfsC g (fuel + 1) node st =
          (match dfsNbs (dfsC g fuel) node (g node)
              { visited := setAdd st.visited node,
                recStack := setAdd st.recStack node,
                cycles := st.cycles } with
            | (true, st2) => (true, st2)
            | (false, st2) =>
                (false, { st2 with recStack := st2.recStack.erase node })) := rfl
      have hauxr := aux (g node)
        { visited := setAdd st.visited node,
          recStack := setAdd st.recStack node, cycles := st.cycles } F
        (fun x hx => hx) rfl hva1 hb1 hS1
      rcases hns : dfsNbs (dfsC g fuel) node (g node)
          { visited := setAdd st.visited node,
            recStack := setAdd st.recStack node,
            cycles := st.cycles } with ⟨b, st2⟩
      rw [hns] at hauxr
      obtain ⟨⟨Δ, hcy, htrue⟩, hfalse⟩ := hauxr
      dsimp only at hcy htrue hfalse
      rw [hunfold, hns]
      cases b with
      | true =>
          dsimp only
          constructor
          · exact ⟨Δ, hcy, fun _ => htrue rfl⟩
          · intro hf
            simp at hf
      | false =>
          dsimp only
          obtain ⟨F2, hS2, hrs2, hvm2, hva2, hb2, hnbs2⟩ := hfalse rfl
          have hnode2 : node ∈ st2.recStack := by
            rw [hrs2]
            exact (mem_setAdd _ _ _).mpr (Or.inr rfl)
          have hnodeNF : node ∉ F ++ F2 := hS2.disj node hnode2
          constructor
          · refine ⟨Δ, hcy, ?_⟩
            intro h
            simp at h
          · intro _
            refine ⟨F2 ++ [node], ?_, ?_, ?_, ?_, ?_⟩
            · rw [← List.append_assoc]
              refine ⟨?_, ?_, ?_, ?_⟩
              · intro x
                show x ∈ st2.visited ↔
                  x ∈ st2.recStack.erase node ∨ x ∈ (F ++ F2) ++ [node]
                rw [hrs2, setAdd_erase st.recStack node hnodeRec]
                rw [hS2.viseq x, hrs2, mem_setAdd]
                simp only [List.mem_append, List.mem_singleton]
                tauto
              · refine List.Nodup.append hS2.fnodup (List.nodup_singleton _) ?_
                intro x hxF hxn
                rw [List.mem_singleton] at hxn
                subst hxn
                exact hnodeNF hxF
              · intro x hx
                show x ∉ (F ++ F2) ++ [node]
                rw [hrs2, setAdd_erase st.recStack node hnodeRec] at hx
                intro hmem
                rcases List.mem_append.mp hmem with hmem | hmem
                · exact hS2.disj x
                    (by rw [hrs2]; exact (mem_setAdd _ _ _).mpr (Or.inl hx)) hmem
                · rw [List.mem_singleton] at hmem
                  subst hmem
                  exact hnodeRec hx
              · exact topo_snoc g (F ++ F2) node hS2.topo hnbs2
            · show st2.recStack.erase node = st.recStack
              rw [hrs2]
              exact setAdd_erase st.recStack node hnodeRec
            · rw [← List.append_assoc]
              exact List.mem_append_right _ (List.mem_singleton_self _)
            · intro x hx
              exact hvm2 x ((mem_setAdd _ _ _).mpr (Or.inl hx))
            · exact hva2

theorem dfsC_cycles_ext (g : Nat → List Nat) :
    ∀ (fuel node : Nat) (st : DfsState),
      ∃ Δ, (dfsC g fuel node st).2.cycles = st.cycles ++ Δ
  | 0, node, st => ⟨[], by simp [dfsC]⟩
  | fuel + 1, node, st => by
      have aux : ∀ (nbs : List Nat) (stc : DfsState),
          ∃ Δ, (dfsNbs (dfsC g fuel) node nbs stc).2.cycles =
            stc.cycles ++ Δ := by
        intro nbs
        induction nbs with
        | nil => exact fun stc => ⟨[], by simp [dfsNbs]⟩
        | cons nb rest ih =>
            intro stc
            rw [dfsNbs]
            by_cases hv : nb ∈ stc.visited
            · rw [if_neg (not_not_intro hv)]
              by_cases hr : nb ∈ stc.recStack
              · rw [if_pos hr]
                exact ⟨[(node, nb)], rfl⟩
              · rw [if_neg hr]
                exact ih stc
            · rw [if_pos (by simpa using hv)]
              obtain ⟨Δc, hc⟩ := dfsC_cycles_ext g fuel nb stc
              rcases hcr : dfsC g fuel nb stc with ⟨bc, st2⟩
              rw [hcr] at hc
              dsimp only at hc
              cases bc with
              | true =>
                  dsimp only
                  exact ⟨Δc, hc⟩
              | false =>
                  dsimp only
                  obtain ⟨Δr, hrr⟩ := ih st2
                  exact ⟨Δc ++ Δr, by rw [hrr, hc, List.append_assoc]⟩
      have hunfold : dfsC g (fuel + 1) node st =
          (match dfsNbs (dfsC g fuel) node (g node)
              { visited := setAdd st.visited node,
                recStack := setAdd st.recStack node,
                cycles := st.cycles } with
            | (true, st2) => (true, st2)
            | (false, st2) =>
                (false, { st2 with recStack := st2.recStack.erase node })) := rfl
      obtain ⟨Δ1, h1⟩ := aux (g node)
        { visited := setAdd st.visited node,
          recStack := setAdd st.recStack node, cycles := st.cycles }
      rcases hns : dfsNbs (dfsC g fuel) node (g node)
          { visited := setAdd st.visited node,
            recStack := setAdd st.recStack node,
            cycles := st.cycles } with ⟨b, st2⟩
      rw [hns] at h1
      dsimp only at h1
      rw [hunfold, hns]
      cases b with
      | true =>
          dsimp only
          exact ⟨Δ1, h1⟩
      | false =>
          dsimp only
          exact ⟨Δ1, h1⟩

theorem foldExt (g : Nat → List Nat) (fuel : Nat) :
    ∀ (keys : List Nat) (st : DfsState),
      ∃ Δ, (keys.foldl (fun st node =>
        if node ∉ st.visited then (dfsC g fuel node st).2 else st)
          st).cycles = st.cycles ++ Δ := by
  intro keys
  induction keys with
  | nil => exact fun st => ⟨[], by simp⟩
  | cons k rest ih =>
      intro st
      rw [List.foldl_cons]
      by_cases hv : k ∈ st.visited
      · rw [if_neg (not_not_intro hv)]
        exact ih st
      · rw [if_pos (by simpa using hv)]
        obtain ⟨Δ1, h1⟩ := dfsC_cycles_ext g fuel k st
        obtain ⟨Δ2, h2⟩ := ih ((dfsC g fuel k st).2)
        exact ⟨Δ1 ++ Δ2, by rw [h2, h1, List.append_assoc]⟩

theorem foldB (g : Nat → List Nat) (allNs : List Nat)
    (hGsub : ∀ u v, v ∈ g u → v ∈ allNs) :
    ∀ (keys : List Nat) (st : DfsState) (F : List Nat),
      SInvC g st F → st.recStack = [] →
      (∀ x ∈ st.visited, x ∈ allNs) →
      (∀ k ∈ keys, k ∈ allNs) →
      ∃ Δ, (keys.foldl (fun st node =>
          if node ∉ st.visited then
            (dfsC g (allNs.length + 1) node st).2 else st) st).cycles =
          st.cycles ++ Δ ∧
        (Δ = [] → ∃ F2,
          (∀ k ∈ keys, k ∈ F ++ F2) ∧
          SInvC g (keys.foldl (fun st node =>
            if node ∉ st.visited then
              (dfsC g (allNs.length + 1) node st).2 else st) st) (F ++ F2)) := by
  intro keys
  induction keys with
  | nil =>
      intro st F hS _ _ _
      refine ⟨[], by simp, ?_⟩
      intro _
      refine ⟨[], by simp, ?_⟩
      rw [List.append_nil]
      exact hS
  | cons k rest ih =>
      intro st F hS hrs hva hkeys
      have hka : k ∈ allNs := hkeys k (List.mem_cons_self _ _)
      rw [List.foldl_cons]
      by_cases hk : k ∈ st.visited
      · rw [if_neg (not_not_intro hk)]
        obtain ⟨Δ, hΔ, hrest⟩ := ih st F hS hrs hva
          (fun x hx => hkeys x (List.mem_cons_of_mem _ hx))
        refine ⟨Δ, hΔ, ?_⟩
        intro h0
        obtain ⟨F2, hmem, hSf⟩ := hrest h0
        have hkF : k ∈ F := by
          rcases (hS.viseq k).mp hk with h | h
          · rw [hrs] at h
            cases h
          · exact h
        refine ⟨F2, ?_, hSf⟩
        intro x hx
        rcases List.mem_cons.mp hx with rfl | hx
        · exact List.mem_append_left _ hkF
        · exact hmem x hx
      · rw [if_pos (by simpa using hk)]
        have hbound : (allNs.filter (fun x =>
            decide (x ∉ st.visited))).length < allNs.length + 1 :=
          Nat.lt_succ_of_le (List.length_filter_le _ _)
        have hmain := dfsCB g allNs hGsub (allNs.length + 1) k st F hk hka
          hva hbound hS
        rcases hcr : dfsC g (allNs.length + 1) k st with ⟨b, st2⟩
        rw [hcr] at hmain
        obtain ⟨⟨Δc, hcyc, htruec⟩, hfalsec⟩ := hmain
        dsimp only at hcyc htruec hfalsec
        cases b with
        | true =>
            dsimp only
            obtain ⟨Δr, hΔr⟩ := foldExt g (allNs.length + 1) rest st2
            refine ⟨Δc ++ Δr, by rw [hΔr, hcyc, List.append_assoc], ?_⟩
            intro h0
            rcases List.append_eq_nil.mp h0 with ⟨h1, -⟩
            exact absurd h1 (htruec rfl)
        | false =>
            dsimp only
            obtain ⟨F2c, hS2, hrs2, hkF2, hvm2, hva2⟩ := hfalsec rfl
            obtain ⟨Δr, hΔr, hrestr⟩ := ih st2 (F ++ F2c) hS2
              (hrs2.trans hrs) hva2
              (fun x hx => hkeys x (List.mem_cons_of_mem _ hx))
            refine ⟨Δc ++ Δr, by rw [hΔr, hcyc, List.append_assoc], ?_⟩
            intro h0
            rcases List.append_eq_nil.mp h0 with ⟨-, h2⟩
            obtain ⟨F2r, hmemr, hSf⟩ := hrestr h2
            refine ⟨F2c ++ F2r, ?_, ?_⟩
            · intro x hx
              rw [← List.append_assoc]
              rcases List.mem_cons.mp hx with rfl | hx
              · exact List.mem_append_left _ hkF2
              · exact hmemr x hx
            · rw [← List.append_assoc]
              exact hSf

/-- Completeness of the embedded cycle detector: a dependency list whose
dependent→prerequisite relation admits a closed `TransGen` walk makes
`detect_circular_dependencies` return a non-empty list. -/
theorem detect_cycle_nonempty (deps : List TaskDependency)
    (hcyc : ∃ v, Relation.TransGen (DepEdge deps) v v) :
    detect_circular_dependencies deps ≠ [] := by
  intro h0
  have hGsub : ∀ u v, v ∈ buildGraphC deps u → v ∈ allNodesC deps := by
    intro u v hv
    obtain ⟨d, hd, -, hp⟩ := (buildGraphC_mem deps u v).mp hv
    unfold allNodesC
    rw [mem_dedupFirst, List.mem_append]
    exact Or.inr (List.mem_map.mpr ⟨d, hd, hp⟩)
  have hkeysub : ∀ k ∈ graphKeysC deps, k ∈ allNodesC deps := by
    intro k hk
    unfold graphKeysC at hk
    rw [mem_dedupFirst] at hk
    unfold allNodesC
    rw [mem_dedupFirst, List.mem_append]
    exact Or.inl hk
  have hS0 : SInvC (buildGraphC deps) ⟨[], [], []⟩ [] := by
    refine ⟨?_, List.nodup_nil, ?_, ?_⟩
    · intro x
      simp
    · intro x hx
      cases hx
    · intro i hi
      cases hi
  obtain ⟨Δ, hΔ, hrest⟩ := foldB (buildGraphC deps) (allNodesC deps) hGsub
    (graphKeysC deps) ⟨[], [], []⟩ [] hS0 rfl (by intro x hx; cases hx)
    hkeysub
  have hΔnil : Δ = [] := by
    have hdet : detect_circular_dependencies deps =
        ((graphKeysC deps).foldl (fun st node =>
          if node ∉ st.visited then
            (dfsC (buildGraphC deps) ((allNodesC deps).length + 1) node st).2
          else st) ⟨[], [], []⟩).cycles := rfl
    rw [hdet, hΔ] at h0
    simpa using h0
  obtain ⟨F2, hmem, hSf⟩ := hrest hΔnil
  rw [List.nil_append] at hmem hSf
  have hstep : ∀ a b, DepEdge deps a b → F2.indexOf b < F2.indexOf a := by
    intro a b hab
    have haK : a ∈ graphKeysC deps := by
      obtain ⟨d, hd, hdep, -⟩ := hab
      unfold graphKeysC
      rw [mem_dedupFirst]
      exact List.mem_map.mpr ⟨d, hd, hdep⟩
    have haF : a ∈ F2 := hmem a haK
    have hi : F2.indexOf a < F2.length := List.indexOf_lt_length.mpr haF
    have hget : F2.get ⟨F2.indexOf a, hi⟩ = a := List.getElem_indexOf hi
    have hbg : b ∈ buildGraphC deps (F2.get ⟨F2.indexOf a, hi⟩) := by
      rw [hget]
      exact (buildGraphC_edge deps a b).mpr hab
    have hbt : b ∈ F2.take (F2.indexOf a) := hSf.topo (F2.indexOf a) hi b hbg
    exact takeIdx F2 (F2.indexOf a) b hbt
  have hdesc : ∀ a b, Relation.TransGen (DepEdge deps) a b →
      F2.indexOf b < F2.indexOf a := by
    intro a b hab
    induction hab with
    | single h => exact hstep _ _ h
    | tail _ h ih => exact lt_trans (hstep _ _ h) ih
  obtain ⟨v, hvv⟩ := hcyc
  exact absurd (hdesc v v hvv) (lt_irrefl _)

/-- Input of the C5 witness: the two-task cycle 0 → 1 → 0. -/
def c5deps : List TaskDependency :=
  [{ dependent_task_index := 0, prerequisite_task_index := 1,
     dependency_phrase := "a" },
   { dependent_task_index := 1, prerequisite_task_index := 0,
     dependency_phrase := "b" }]

/-- C5: for every dependency list with task indices in `[0, n)`, if the
dependent→prerequisite digraph has a cycle through at least two distinct
nodes (an edge `v → w`, `v ≠ w`, plus a path back from `w` to `v`),
`detect_circular_dependencies` returns a non-empty list of
`(node, ancestor)` pairs; and whenever the digraph is acyclic (no closed
walk at all — in particular for every linear chain) it returns `[]`. -/
theorem C5_cycle_detection (n : Nat) (deps : List TaskDependency)
    (hrange : ∀ d ∈ deps, d.dependent_task_index < n ∧
      d.prerequisite_task_index < n) :
    ((∃ v w, v ≠ w ∧ DepEdge deps v w ∧
        Relation.TransGen (DepEdge deps) w v) →
      detect_circular_dependencies deps ≠ []) ∧
    ((∀ v, ¬ Relation.TransGen (DepEdge deps) v v) →
      detect_circular_dependencies deps = []) := by
  constructor
  · rintro ⟨v, w, -, hvw, hwv⟩
    exact detect_cycle_nonempty deps ⟨v, Relation.TransGen.head hvw hwv⟩
  · exact detect_acyclic_nil deps

/-- C5 witness: on the concrete two-task cycle `c5deps` all hypotheses hold
and the detector reports a non-empty cycle list. -/
theorem C5_witness :
    (∀ d ∈ c5deps, d.dependent_task_index < 2 ∧
      d.prerequisite_task_index < 2) ∧
    detect_circular_dependencies c5deps ≠ [] :=
  ⟨by decide,
   (C5_cycle_detection 2 c5deps (by decide)).1
     ⟨0, 1, by decide, by unfold DepEdge; decide,
      Relation.TransGen.single (by unfold DepEdge; decide)⟩⟩

end MeetingTasks
